import Mathlib

/-!
Verification of the Pyomo modeling layer against its specification.

The development shallowly embeds the parts of the code base that the
specification talks about:

* `pyomo/common/collections/orderedset.py` — the `OrderedSet` helper type
  (backed by an insertion-ordered Python `dict`);
* `pyomo/solvers/plugins/solvers/GAMS.py` — the GAMS solver dispatch
  (`GAMSSolver.__new__`) and the option-string parser
  (`_GAMSSolver._options_string_to_dict`);
* the expression tree / standard-representation (repn) / writer layer.
  Those modules are not part of the provided sources (only their tests and
  callers are), so they are modelled from the specification; every such
  definition carries a doc comment starting with `Modelled from the spec:`.

Python machine-level details are modelled as follows: numeric values are
exact rationals `ℚ`, Python `dict`s are association lists that keep the
first-insertion position of each key, and fallible operations return
`Except PyError`.
-/

namespace Pyomo

/-- Python exceptions that the embedded code can raise. -/
inductive PyError
  | keyError
  | valueError
  | evalError
deriving DecidableEq, Repr

/-! ## `OrderedSet` (from `pyomo/common/collections/orderedset.py`)

The Python class stores its elements as the keys of a `dict`; keys are
unique and iteration follows first-insertion order.  We embed it as a
duplicate-free list in insertion order. -/

structure OrderedSet (α : Type) where
  elems : List α
  nodup : elems.Nodup

/-- Two `OrderedSet`s with the same element list are equal (the `Nodup`
field is proof-irrelevant). -/
theorem OrderedSet.eq_of_elems {α : Type} {s t : OrderedSet α}
    (h : s.elems = t.elems) : s = t := by
  cases s; cases t; simpa using h

/-- `OrderedSet()`. -/
def OrderedSet.empty (α : Type) : OrderedSet α := ⟨[], List.nodup_nil⟩

/-- `val in s` (`OrderedSet.__contains__`). -/
def OrderedSet.mem {α : Type} (s : OrderedSet α) (v : α) : Prop := v ∈ s.elems

instance {α : Type} [DecidableEq α] (s : OrderedSet α) (v : α) :
    Decidable (s.mem v) := by unfold OrderedSet.mem; infer_instance

/-- `OrderedSet.add`: `self._dict[val] = None`.  If the key is already
present the dict (hence the set) is unchanged; otherwise the key is
appended at the end of the insertion order. -/
def OrderedSet.add {α : Type} [DecidableEq α] (s : OrderedSet α) (v : α) :
    OrderedSet α :=
  if h : v ∈ s.elems then s
  else
    ⟨s.elems ++ [v],
     List.nodup_append.mpr
       ⟨s.nodup, List.nodup_singleton v, by
         intro a ha hb
         simp only [List.mem_singleton] at hb
         subst hb; exact h ha⟩⟩

/-- `OrderedSet.discard`: delete the key if present, never raise. -/
def OrderedSet.discard {α : Type} [DecidableEq α] (s : OrderedSet α) (v : α) :
    OrderedSet α :=
  ⟨s.elems.erase v, s.nodup.erase v⟩

/-- `OrderedSet.remove`: `del self._dict[val]` — raises `KeyError` when the
element is absent. -/
def OrderedSet.remove {α : Type} [DecidableEq α] (s : OrderedSet α) (v : α) :
    Except PyError (OrderedSet α) :=
  if v ∈ s.elems then .ok (s.discard v) else .error .keyError

/-- `iter(s)` / `list(s)`: the elements in insertion order. -/
def OrderedSet.toList {α : Type} (s : OrderedSet α) : List α := s.elems

/-- `len(s)`. -/
def OrderedSet.card {α : Type} (s : OrderedSet α) : ℕ := s.elems.length

/-- `OrderedSet(iterable)` / `update`: add each element in turn. -/
def OrderedSet.ofList {α : Type} [DecidableEq α] (l : List α) : OrderedSet α :=
  l.foldl OrderedSet.add (OrderedSet.empty α)

/-- Reference description of "first-insertion order": keep the first
occurrence of every element of `l`, in order. -/
def firstOccurrences {α : Type} [DecidableEq α] : List α → List α
  | [] => []
  | a :: l => a :: firstOccurrences (l.filter (fun x => x ≠ a))
termination_by l => l.length
decreasing_by
  simp only [List.length_cons]
  exact Nat.lt_succ_of_le (List.length_filter_le _ _)

theorem firstOccurrences_nil {α : Type} [DecidableEq α] :
    firstOccurrences ([] : List α) = [] := by
  rw [firstOccurrences.eq_def]

theorem firstOccurrences_cons {α : Type} [DecidableEq α] (a : α) (l : List α) :
    firstOccurrences (a :: l) = a :: firstOccurrences (l.filter (fun x => x ≠ a)) := by
  rw [firstOccurrences.eq_def]

theorem OrderedSet.add_of_mem {α : Type} [DecidableEq α]
    (s : OrderedSet α) (v : α) (h : v ∈ s.elems) : s.add v = s := by
  simp [OrderedSet.add, h]

theorem OrderedSet.add_of_not_mem {α : Type} [DecidableEq α]
    (s : OrderedSet α) (v : α) (h : v ∉ s.elems) :
    (s.add v).elems = s.elems ++ [v] := by
  simp [OrderedSet.add, h]

theorem OrderedSet.foldl_add_elems {α : Type} [DecidableEq α]
    (l : List α) (s : OrderedSet α) :
    (l.foldl OrderedSet.add s).elems
      = s.elems ++ firstOccurrences (l.filter (fun x => x ∉ s.elems)) := by
  induction l generalizing s with
  | nil => simp [firstOccurrences_nil]
  | cons a l ih =>
    by_cases h : a ∈ s.elems
    · rw [List.foldl_cons, OrderedSet.add_of_mem s a h, ih]
      congr 2
      rw [List.filter_cons]
      simp [h]
    · rw [List.foldl_cons, ih]
      have he : (s.add a).elems = s.elems ++ [a] := OrderedSet.add_of_not_mem s a h
      rw [he, List.append_assoc]
      congr 1
      rw [List.filter_cons]
      have hd : decide (a ∉ s.elems) = true := by simpa using h
      simp only [hd, List.cons_append, List.nil_append, if_pos]
      rw [firstOccurrences_cons]
      simp only [List.cons.injEq, true_and]
      rw [List.filter_filter]
      congr 1
      apply List.filter_congr
      intro x _
      rw [Bool.eq_iff_iff]
      simp [List.mem_append, not_or, and_comm]

/-- **C8.** `OrderedSet` preserves insertion order: building a set by
repeated `add` yields exactly the first occurrences of the inserted
elements in insertion order, and `add v` for an element already present
leaves the set, its iteration order, and its length unchanged. -/
theorem orderedSet_insertion_order {α : Type} [DecidableEq α]
    (l : List α) (s : OrderedSet α) (v : α) (h : s.mem v) :
    (OrderedSet.ofList l).toList = firstOccurrences l
      ∧ s.add v = s
      ∧ (s.add v).toList = s.toList
      ∧ (s.add v).card = s.card := by
  have hmem : v ∈ s.elems := h
  have hadd : s.add v = s := OrderedSet.add_of_mem s v hmem
  refine ⟨?_, hadd, by rw [hadd], by rw [hadd]⟩
  unfold OrderedSet.ofList OrderedSet.toList
  rw [OrderedSet.foldl_add_elems]
  simp only [OrderedSet.empty, List.nil_append]
  congr 1
  have : ∀ x ∈ l, (decide (x ∉ ([] : List α))) = true := by
    intro x _; simp
  rw [List.filter_congr (q := fun _ => true) this, List.filter_true]

/-- Witness for C8 at concrete inputs. -/
theorem orderedSet_insertion_order_witness :
    (OrderedSet.ofList [1, 2, 1, 3]).toList = firstOccurrences [1, 2, 1, 3]
      ∧ (OrderedSet.ofList [1, 2]).add 2 = OrderedSet.ofList [1, 2]
      ∧ ((OrderedSet.ofList [1, 2]).add 2).toList = (OrderedSet.ofList [1, 2]).toList
      ∧ ((OrderedSet.ofList [1, 2]).add 2).card = (OrderedSet.ofList [1, 2]).card := by
  refine ⟨(orderedSet_insertion_order [1, 2, 1, 3] (OrderedSet.ofList [1, 2]) 2
    (by decide)).1, ?_, ?_, ?_⟩
  · exact (orderedSet_insertion_order [1, 2, 1, 3] (OrderedSet.ofList [1, 2]) 2
      (by decide)).2.1
  · exact (orderedSet_insertion_order [1, 2, 1, 3] (OrderedSet.ofList [1, 2]) 2
      (by decide)).2.2.1
  · exact (orderedSet_insertion_order [1, 2, 1, 3] (OrderedSet.ofList [1, 2]) 2
      (by decide)).2.2.2

/-- **C9.** `OrderedSet.remove v` raises `KeyError` exactly when `v` is
absent while `discard` never raises (it is a total function); when `v` is
absent both leave the set unchanged, and when `v` is present both remove
exactly `v`, keeping the other elements in their original relative order
(the result is the filter of the original order by `≠ v`). -/
theorem orderedSet_remove_discard {α : Type} [DecidableEq α]
    (s : OrderedSet α) (v : α) :
    (s.remove v = .error .keyError ↔ ¬ s.mem v)
      ∧ (¬ s.mem v → s.discard v = s ∧ s.remove v = .error .keyError)
      ∧ (s.mem v → s.remove v = .ok (s.discard v)
            ∧ (s.discard v).toList = s.toList.filter (fun x => x ≠ v)) := by
  have hfilter : (s.discard v).toList = s.toList.filter (fun x => x ≠ v) := by
    show s.elems.erase v = s.elems.filter (fun x => x ≠ v)
    rw [s.nodup.erase_eq_filter]
    apply List.filter_congr
    intro x _
    by_cases hxv : x = v <;> simp [hxv]
  refine ⟨?_, ?_, ?_⟩
  · unfold OrderedSet.remove
    by_cases hin : v ∈ s.elems
    · rw [if_pos hin]
      constructor
      · intro hcontra
        exact absurd hcontra (by simp)
      · intro hnot
        exact absurd hin hnot
    · rw [if_neg hin]
      exact iff_of_true rfl hin
  · intro habs
    have hnot : v ∉ s.elems := habs
    constructor
    · exact OrderedSet.eq_of_elems (by
        unfold OrderedSet.discard
        exact List.erase_of_not_mem hnot)
    · unfold OrderedSet.remove
      simp [hnot]
  · intro hmem
    have hin : v ∈ s.elems := hmem
    exact ⟨by unfold OrderedSet.remove; simp [hin], hfilter⟩

/-- Witness for C9 at concrete inputs. -/
theorem orderedSet_remove_discard_witness :
    ((OrderedSet.ofList [1, 2, 3]).remove 2
        = .ok ((OrderedSet.ofList [1, 2, 3]).discard 2)
      ∧ ((OrderedSet.ofList [1, 2, 3]).discard 2).toList
        = (OrderedSet.ofList [1, 2, 3]).toList.filter (fun x => x ≠ 2))
      ∧ (OrderedSet.ofList [1, 2, 3]).discard 9 = OrderedSet.ofList [1, 2, 3]
      ∧ (OrderedSet.ofList [1, 2, 3]).remove 9 = .error .keyError :=
  ⟨(orderedSet_remove_discard (OrderedSet.ofList [1, 2, 3]) 2).2.2 (by decide),
   (orderedSet_remove_discard (OrderedSet.ofList [1, 2, 3]) 9).2.1 (by decide)⟩

/-! ## GAMS solver interface (from `pyomo/solvers/plugins/solvers/GAMS.py`) -/

/-- The two concrete GAMS interfaces that `SolverFactory` can return:
`'_gams_direct'` (`GAMSDirect`, the Python-API interface) and
`'_gams_shell'` (`GAMSShell`, the command-line interface). -/
inductive GamsInterface
  | gamsDirect
  | gamsShell
deriving DecidableEq, Repr

/-- `GAMSSolver.__new__`: dispatch on the `solver_io` keyword.  `none`
models both an omitted keyword (`kwds.pop('solver_io', 'shell')`) and an
explicit `solver_io=None` (`if mode is None: mode = 'shell'`); an
unrecognized mode logs an error and returns `None`. -/
def gamsSolverNew (solver_io : Option String) : Option GamsInterface :=
  let mode := match solver_io with
    | none => "shell"
    | some m => m
  if mode = "direct" ∨ mode = "python" then some .gamsDirect
  else if mode = "shell" ∨ mode = "gms" then some .gamsShell
  else none

/-- **C7.** Constructing the GAMS solver dispatches on the `solver_io`
mode: `'direct'`/`'python'` give the direct Python-API interface,
`'shell'`/`'gms'`/omitted/`None` give the shell interface, and every other
mode yields `None` (after logging an error). -/
theorem gamsSolverNew_dispatch (io : Option String) :
    ((io = some "direct" ∨ io = some "python") →
        gamsSolverNew io = some .gamsDirect)
      ∧ ((io = none ∨ io = some "shell" ∨ io = some "gms") →
        gamsSolverNew io = some .gamsShell)
      ∧ (∀ m, io = some m →
        m ∉ (["direct", "python", "shell", "gms"] : List String) →
        gamsSolverNew io = none) := by
  refine ⟨?_, ?_, ?_⟩
  · rintro (rfl | rfl) <;> rfl
  · rintro (rfl | rfl | rfl) <;> rfl
  · rintro m rfl hm
    simp only [List.mem_cons, List.mem_singleton, not_or] at hm
    obtain ⟨h1, h2, h3, h4, -⟩ := hm
    unfold gamsSolverNew
    rw [if_neg (by simp [h1, h2]), if_neg (by simp [h3, h4])]

/-- Witness for C7 at concrete inputs. -/
theorem gamsSolverNew_dispatch_witness :
    gamsSolverNew (some "python") = some .gamsDirect
      ∧ gamsSolverNew none = some .gamsShell
      ∧ gamsSolverNew (some "bogus") = none :=
  ⟨(gamsSolverNew_dispatch (some "python")).1 (Or.inr rfl),
   (gamsSolverNew_dispatch none).2.1 (Or.inl rfl),
   (gamsSolverNew_dispatch (some "bogus")).2.2 "bogus" rfl (by decide)⟩

/-! ## `_GAMSSolver._options_string_to_dict`

The Python method leans on two external pieces of machinery: `shlex.split`
and the builtin `eval`.  Both are modelled as oracles passed in as
function arguments: `shlexSplit` for the tokenizer, `evalOuter` for the
`eval(istr)` call that unquotes a fully quoted option string (it returns
`none` when `eval` raises), and `evalV : String → Option V` for the
per-value `eval` in the `try`/`except` block (`none` models any raised
exception, in which case the raw string is kept). -/

/-- `istr.strip()`: drop leading and trailing whitespace. -/
def pyStrip (s : String) : String :=
  String.mk
    (((s.data.dropWhile Char.isWhitespace).reverse.dropWhile
      Char.isWhitespace).reverse)

/-- `istr[0]` (only consulted when the stripped string is nonempty). -/
def strFront (s : String) : Char := s.data.headD (Char.ofNat 0)

/-- `istr[0] == "'" or istr[0] == '"'` (chars written by code point:
39 is the single quote, 34 the double quote). -/
def isQuoteChar (c : Char) : Bool := c = Char.ofNat 39 ∨ c = Char.ofNat 34

/-- `token[:index]` where `index = token.find('=')`. -/
def tokenKey (token : String) : String :=
  String.mk (token.data.takeWhile (fun c => c ≠ '='))

/-- `token[index+1:]` where `index = token.find('=')`. -/
def tokenRest (token : String) : String :=
  String.mk ((token.data.dropWhile (fun c => c ≠ '=')).drop 1)

/-- `try: val = eval(...) except: val = token[index+1:]`. -/
def tokenVal {V : Type} (evalV : String → Option V) (token : String) :
    V ⊕ String :=
  match evalV (tokenRest token) with
  | some v => Sum.inl v
  | none => Sum.inr (tokenRest token)

/-- `ans[token[:index]] = val`: Python dict assignment — an existing key
keeps its position and gets the new value, a fresh key is appended. -/
def dictInsert {β : Type} (l : List (String × β)) (k : String) (v : β) :
    List (String × β) :=
  if k ∈ l.map Prod.fst then l.map (fun p => if p.1 = k then (k, v) else p)
  else l ++ [(k, v)]

/-- The `for token in tokens` loop of `_options_string_to_dict`. -/
def optionsLoop {V : Type} (evalV : String → Option V)
    (acc : List (String × (V ⊕ String))) :
    List String → Except PyError (List (String × (V ⊕ String)))
  | [] => .ok acc
  | token :: rest =>
    if '=' ∈ token.data then
      optionsLoop evalV (dictInsert acc (tokenKey token) (tokenVal evalV token))
        rest
    else .error .valueError

/-- `_GAMSSolver._options_string_to_dict` (staticmethod). -/
def optionsStringToDict {V : Type} (shlexSplit : String → List String)
    (evalOuter : String → Option String) (evalV : String → Option V)
    (istr : String) : Except PyError (List (String × (V ⊕ String))) :=
  let t := pyStrip istr
  if t = "" then .ok []
  else
    match (if isQuoteChar (strFront t) then evalOuter t else some t) with
    | none => .error .evalError
    | some s => optionsLoop evalV [] (shlexSplit s)

theorem optionsLoop_error {V : Type} (evalV : String → Option V)
    (tokens : List String) :
    ∀ acc, (∃ t ∈ tokens, '=' ∉ t.data) →
      optionsLoop evalV acc tokens = .error .valueError := by
  induction tokens with
  | nil => rintro acc ⟨t, ht, -⟩; cases ht
  | cons token rest ih =>
    rintro acc ⟨t, ht, hne⟩
    unfold optionsLoop
    by_cases hq : '=' ∈ token.data
    · rw [if_pos hq]
      apply ih
      rcases List.mem_cons.mp ht with rfl | htl
      · exact absurd hq hne
      · exact ⟨t, htl, hne⟩
    · rw [if_neg hq]

theorem dictInsert_fresh {β : Type} (l : List (String × β)) (k : String)
    (v : β) (h : k ∉ l.map Prod.fst) : dictInsert l k v = l ++ [(k, v)] := by
  rw [dictInsert, if_neg h]

theorem optionsLoop_ok {V : Type} (evalV : String → Option V)
    (tokens : List String) :
    ∀ acc, (∀ t ∈ tokens, '=' ∈ t.data) →
      (tokens.map tokenKey).Nodup →
      (∀ t ∈ tokens, tokenKey t ∉ acc.map Prod.fst) →
      optionsLoop evalV acc tokens
        = .ok (acc ++ tokens.map (fun t => (tokenKey t, tokenVal evalV t))) := by
  induction tokens with
  | nil => intro acc _ _ _; simp [optionsLoop]
  | cons token rest ih =>
    intro acc hall hnd hfresh
    unfold optionsLoop
    rw [if_pos (hall token (List.mem_cons_self _ _))]
    rw [dictInsert_fresh _ _ _ (hfresh token (List.mem_cons_self _ _))]
    rw [List.map_cons] at hnd
    have hnd' := List.nodup_cons.mp hnd
    rw [ih _ (fun t ht => hall t (List.mem_cons_of_mem _ ht)) hnd'.2 ?_]
    · simp
    · intro t ht
      rw [List.map_append]
      simp only [List.mem_append, List.map_cons, List.map_nil,
        List.mem_singleton, not_or]
      refine ⟨hfresh t (List.mem_cons_of_mem _ ht), ?_⟩
      intro hEq
      exact hnd'.1 (hEq ▸ List.mem_map_of_mem tokenKey ht)

/-- **C10.** `_options_string_to_dict` returns an empty dict for a blank
string; otherwise (once the optional outer-quote `eval` has produced the
effective string `s`) it raises `ValueError` if some shlex token has no
`'='`, and when every token has one (and the keys are distinct, so that
"a dict mapping each token" is well defined) it maps each token's text
before its first `'='` to the evaluated remainder when `eval` succeeds
(`Sum.inl`) or to the raw remainder string otherwise (`Sum.inr`). -/
theorem optionsStringToDict_spec {V : Type} (shlexSplit : String → List String)
    (evalOuter : String → Option String) (evalV : String → Option V)
    (istr s : String) :
    (pyStrip istr = "" →
        optionsStringToDict shlexSplit evalOuter evalV istr = .ok [])
      ∧ (pyStrip istr ≠ "" →
        (if isQuoteChar (strFront (pyStrip istr)) then evalOuter (pyStrip istr)
          else some (pyStrip istr)) = some s →
        ((∃ t ∈ shlexSplit s, '=' ∉ t.data) →
            optionsStringToDict shlexSplit evalOuter evalV istr
              = .error .valueError)
          ∧ ((∀ t ∈ shlexSplit s, '=' ∈ t.data) →
            ((shlexSplit s).map tokenKey).Nodup →
            optionsStringToDict shlexSplit evalOuter evalV istr
              = .ok ((shlexSplit s).map
                  (fun t => (tokenKey t, tokenVal evalV t))))) := by
  constructor
  · intro hblank
    unfold optionsStringToDict
    rw [if_pos hblank]
  · intro hne hs
    unfold optionsStringToDict
    rw [if_neg hne, hs]
    constructor
    · intro hbad
      exact optionsLoop_error evalV (shlexSplit s) [] hbad
    · intro hall hnd
      show optionsLoop evalV [] (shlexSplit s) = _
      rw [optionsLoop_ok evalV (shlexSplit s) [] hall hnd (by simp)]
      simp

/-- Witness for C10 at concrete inputs, with concrete (table-driven)
tokenizer and `eval` oracles. -/
theorem optionsStringToDict_spec_witness :
    optionsStringToDict (V := ℤ)
        (fun s => if s = "mtype=2 load=x" then ["mtype=2", "load=x"] else [s])
        (fun s => some s)
        (fun s => if s = "2" then some 2 else none) "" = .ok []
      ∧ optionsStringToDict (V := ℤ)
        (fun s => if s = "mtype=2 load=x" then ["mtype=2", "load=x"] else [s])
        (fun s => some s)
        (fun s => if s = "2" then some 2 else none) "mtype=2 load=x"
        = .ok [("mtype", Sum.inl 2), ("load", Sum.inr "x")]
      ∧ optionsStringToDict (V := ℤ)
        (fun s => if s = "mtype=2 load=x" then ["mtype=2", "load=x"] else [s])
        (fun s => some s)
        (fun s => if s = "2" then some 2 else none) "badoption"
        = .error .valueError := by
  refine ⟨?_, ?_, ?_⟩
  · exact (optionsStringToDict_spec (V := ℤ)
      (fun s => if s = "mtype=2 load=x" then ["mtype=2", "load=x"] else [s])
      (fun s => some s)
      (fun s => if s = "2" then some 2 else none) "" "").1 (by decide)
  · have h := ((optionsStringToDict_spec (V := ℤ)
      (fun s => if s = "mtype=2 load=x" then ["mtype=2", "load=x"] else [s])
      (fun s => some s)
      (fun s => if s = "2" then some 2 else none) "mtype=2 load=x"
      "mtype=2 load=x").2 (by decide) (by decide)).2 (by decide) (by decide)
    exact h.trans rfl
  · exact ((optionsStringToDict_spec (V := ℤ)
      (fun s => if s = "mtype=2 load=x" then ["mtype=2", "load=x"] else [s])
      (fun s => some s)
      (fun s => if s = "2" then some 2 else none) "badoption"
      "badoption").2 (by decide) (by decide)).1
      ⟨"badoption", by decide, by decide⟩

/-! ## Expression trees and the standard representation (repn)

The expression-tree data model, the canonicalization/repn pass, and the
writer are part of this repository but not among the provided sources
(only their tests — `pyomo/repn/tests/baron/test_baron.py` — and callers
are), so they are modelled from the specification.  Numeric values are
exact rationals, which is how the embedding renders the spec's
"bit-exact numeric semantics". -/

/-- The unary nonlinear intrinsic functions that can appear in an
expression tree. -/
inductive UFunc
  | sin
  | cos
  | exp
  | log
deriving DecidableEq, Repr

/-- Modelled from the spec: the expression tree data model — symbolic
arithmetic expressions ("sums, products, powers, nonlinear functions")
represented as trees.  Variables are identified by their index; powers
carry a nonnegative integer exponent. -/
inductive Expr
  | const (q : ℚ)
  | var (i : ℕ)
  | add (a b : Expr)
  | mul (a b : Expr)
  | pow (a : Expr) (n : ℕ)
  | unary (f : UFunc) (a : Expr)
deriving DecidableEq, Repr

/-- Numeric interpretation of the unary intrinsic functions.  The host
system evaluates them in its numeric stack; the embedding treats them as
uninterpreted, so every result below holds for every interpretation. -/
abbrev Interp := UFunc → ℚ → ℚ

/-- Evaluate an expression under an interpretation of the intrinsic
functions and an assignment of variable values. -/
def Expr.eval (F : Interp) (σ : ℕ → ℚ) : Expr → ℚ
  | .const q => q
  | .var _i => σ _i
  | .add a b => a.eval F σ + b.eval F σ
  | .mul a b => a.eval F σ * b.eval F σ
  | .pow a n => (a.eval F σ) ^ n
  | .unary f a => F f (a.eval F σ)

/-- Syntactic polynomial degree of an expression, saturated at 3: a
nonlinear intrinsic applied to a variable-containing argument is not a
polynomial, and is assigned degree 3 — the smallest value excluded from
the quadratic class (classification collapses everything of degree three
or more into "general nonlinear", so the saturation is harmless).  A
power with exponent 0 has degree 0 (`x ^ 0 = 1`). -/
def Expr.degree : Expr → ℕ
  | .const _ => 0
  | .var _ => 1
  | .add a b => max a.degree b.degree
  | .mul a b => a.degree + b.degree
  | .pow a n => if n = 0 then 0 else a.degree * n
  | .unary _ a => if a.degree = 0 then 0 else 3

/-- Whether an expression contains a variable. -/
def Expr.hasVar : Expr → Bool
  | .const _ => false
  | .var _ => true
  | .add a b => a.hasVar || b.hasVar
  | .mul a b => a.hasVar || b.hasVar
  | .pow a _ => a.hasVar
  | .unary _ a => a.hasVar

/-- Modelled from the spec: the standard representation (repn) — "a
canonical decomposition of an expression tree into constant, linear, and
nonlinear parts used for writer output", with the quadratic terms kept
separately so that expressions of degree two can be classified as
quadratic. -/
structure Repn where
  const : ℚ
  linear : List (ℕ × ℚ)
  quad : List ((ℕ × ℕ) × ℚ)
  nonlinear : Option Expr
deriving DecidableEq, Repr

/-- A repn with no variable content at all. -/
def Repn.isConst (r : Repn) : Bool :=
  r.linear.isEmpty && r.quad.isEmpty && r.nonlinear.isNone

/-- A repn with no quadratic and no general-nonlinear part. -/
def Repn.isAffine (r : Repn) : Bool :=
  r.quad.isEmpty && r.nonlinear.isNone

/-- Combine the nonlinear parts of two summands. -/
def nlAdd : Option Expr → Option Expr → Option Expr
  | none, y => y
  | some x, none => some x
  | some x, some y => some (Expr.add x y)

/-- Add two repns (componentwise). -/
def Repn.addR (r1 r2 : Repn) : Repn :=
  ⟨r1.const + r2.const, r1.linear ++ r2.linear, r1.quad ++ r2.quad,
   nlAdd r1.nonlinear r2.nonlinear⟩

/-- Normalized key of a quadratic term: the variable pair in
nondecreasing index order. -/
def qkey (i j : ℕ) : ℕ × ℕ := if i ≤ j then (i, j) else (j, i)

/-- Multiply a repn by a constant. -/
def Repn.scale (r : Repn) (q : ℚ) : Repn :=
  ⟨q * r.const, r.linear.map (fun p => (p.1, q * p.2)),
   r.quad.map (fun p => (p.1, q * p.2)),
   r.nonlinear.map (fun e => Expr.mul (.const q) e)⟩

/-- Multiply two affine repns, distributing into constant, linear and
quadratic terms. -/
def Repn.mulAffine (r1 r2 : Repn) : Repn :=
  ⟨r1.const * r2.const,
   r1.linear.map (fun p => (p.1, p.2 * r2.const))
     ++ r2.linear.map (fun p => (p.1, r1.const * p.2)),
   r1.linear.flatMap (fun p => r2.linear.map
     (fun p2 => (qkey p.1 p2.1, p.2 * p2.2))),
   none⟩

/-- Modelled from the spec: the visitor-based canonicalization pass that
produces the standard representation of an expression tree.  Constants
and variables are immediate; sums combine componentwise; a product is
folded into the constant/linear/quadratic parts when one factor is
constant or both are affine, and is kept whole as the general nonlinear
part otherwise.  A power folds when its base is constant or its exponent
is 0 or 1, expands into quadratic terms for exponent 2 over an affine
base, and is kept whole otherwise; a nonlinear intrinsic applied to a
constant argument is folded to a constant (via the interpretation `F`)
and is kept whole otherwise. -/
def Expr.repn (F : Interp) : Expr → Repn
  | .const q => ⟨q, [], [], none⟩
  | .var i => ⟨0, [(i, 1)], [], none⟩
  | .add a b => (a.repn F).addR (b.repn F)
  | .mul a b =>
    let r1 := a.repn F
    let r2 := b.repn F
    if r1.isConst then r2.scale r1.const
    else if r2.isConst then r1.scale r2.const
    else if r1.isAffine && r2.isAffine then r1.mulAffine r2
    else ⟨0, [], [], some (.mul a b)⟩
  | .pow a n =>
    let r := a.repn F
    if r.isConst then ⟨r.const ^ n, [], [], none⟩
    else match n with
      | 0 => ⟨1, [], [], none⟩
      | 1 => r
      | 2 =>
        if r.isAffine then r.mulAffine r
        else ⟨0, [], [], some (.pow a 2)⟩
      | _ => ⟨0, [], [], some (.pow a n)⟩
  | .unary f a =>
    let r := a.repn F
    if r.isConst then ⟨F f r.const, [], [], none⟩
    else ⟨0, [], [], some (.unary f a)⟩

/-- Value of a linear part under an assignment. -/
def linSum (σ : ℕ → ℚ) (l : List (ℕ × ℚ)) : ℚ :=
  (l.map (fun p => p.2 * σ p.1)).sum

/-- Value of a quadratic part under an assignment. -/
def quadSum (σ : ℕ → ℚ) (l : List ((ℕ × ℕ) × ℚ)) : ℚ :=
  (l.map (fun p => p.2 * (σ p.1.1 * σ p.1.2))).sum

/-- Recomposition of a repn: constant + linear + quadratic + nonlinear. -/
def Repn.eval (r : Repn) (F : Interp) (σ : ℕ → ℚ) : ℚ :=
  r.const + linSum σ r.linear + quadSum σ r.quad
    + (match r.nonlinear with
       | none => 0
       | some e => e.eval F σ)

theorem linSum_append (σ : ℕ → ℚ) (l1 l2 : List (ℕ × ℚ)) :
    linSum σ (l1 ++ l2) = linSum σ l1 + linSum σ l2 := by
  unfold linSum
  rw [List.map_append, List.sum_append]

theorem quadSum_append (σ : ℕ → ℚ) (l1 l2 : List ((ℕ × ℕ) × ℚ)) :
    quadSum σ (l1 ++ l2) = quadSum σ l1 + quadSum σ l2 := by
  unfold quadSum
  rw [List.map_append, List.sum_append]

theorem linSum_scale (σ : ℕ → ℚ) (q : ℚ) (l : List (ℕ × ℚ)) :
    linSum σ (l.map (fun p => (p.1, q * p.2))) = q * linSum σ l := by
  induction l with
  | nil => simp [linSum]
  | cons p l ih =>
    simp only [List.map_cons, linSum, List.sum_cons] at ih ⊢
    rw [ih]
    ring

theorem quadSum_scale (σ : ℕ → ℚ) (q : ℚ) (l : List ((ℕ × ℕ) × ℚ)) :
    quadSum σ (l.map (fun p => (p.1, q * p.2))) = q * quadSum σ l := by
  induction l with
  | nil => simp [quadSum]
  | cons p l ih =>
    simp only [List.map_cons, quadSum, List.sum_cons] at ih ⊢
    rw [ih]
    ring

theorem linSum_scaleR (σ : ℕ → ℚ) (q : ℚ) (l : List (ℕ × ℚ)) :
    linSum σ (l.map (fun p => (p.1, p.2 * q))) = linSum σ l * q := by
  induction l with
  | nil => simp [linSum]
  | cons p l ih =>
    simp only [List.map_cons, linSum, List.sum_cons] at ih ⊢
    rw [ih]
    ring

theorem Repn.eval_addR (r1 r2 : Repn) (F : Interp) (σ : ℕ → ℚ) :
    (r1.addR r2).eval F σ = r1.eval F σ + r2.eval F σ := by
  unfold Repn.addR Repn.eval
  simp only [linSum_append, quadSum_append]
  cases h1 : r1.nonlinear <;> cases h2 : r2.nonlinear <;>
    simp [nlAdd, Expr.eval] <;> ring

theorem Repn.eval_scale (r : Repn) (q : ℚ) (F : Interp) (σ : ℕ → ℚ) :
    (r.scale q).eval F σ = q * r.eval F σ := by
  unfold Repn.scale Repn.eval
  simp only [linSum_scale, quadSum_scale]
  cases h : r.nonlinear <;> simp [Expr.eval] <;> ring

theorem Repn.isConst_parts (r : Repn) (h : r.isConst = true) :
    r.linear = [] ∧ r.quad = [] ∧ r.nonlinear = none := by
  unfold Repn.isConst at h
  simp only [Bool.and_eq_true, List.isEmpty_iff, Option.isNone_iff_eq_none] at h
  exact ⟨h.1.1, h.1.2, h.2⟩

theorem Repn.isAffine_parts (r : Repn) (h : r.isAffine = true) :
    r.quad = [] ∧ r.nonlinear = none := by
  unfold Repn.isAffine at h
  simp only [Bool.and_eq_true, List.isEmpty_iff, Option.isNone_iff_eq_none] at h
  exact h

theorem Repn.eval_of_isConst (r : Repn) (h : r.isConst = true)
    (F : Interp) (σ : ℕ → ℚ) :
    r.eval F σ = r.const := by
  obtain ⟨h1, h2, h3⟩ := r.isConst_parts h
  unfold Repn.eval
  rw [h1, h2, h3]
  simp [linSum, quadSum]

theorem quadSum_cross_inner (σ : ℕ → ℚ) (i : ℕ) (c : ℚ)
    (l2 : List (ℕ × ℚ)) :
    quadSum σ (l2.map (fun p2 => (qkey i p2.1, c * p2.2)))
      = (c * σ i) * linSum σ l2 := by
  induction l2 with
  | nil => simp [quadSum, linSum]
  | cons p l ih =>
    simp only [List.map_cons, quadSum, linSum, List.sum_cons] at ih ⊢
    rw [ih]
    unfold qkey
    by_cases hij : i ≤ p.1
    · rw [if_pos hij]; simp only []; ring
    · rw [if_neg hij]; simp only []; ring

theorem quadSum_cross (σ : ℕ → ℚ) (l1 l2 : List (ℕ × ℚ)) :
    quadSum σ (l1.flatMap (fun p => l2.map
        (fun p2 => (qkey p.1 p2.1, p.2 * p2.2))))
      = linSum σ l1 * linSum σ l2 := by
  induction l1 with
  | nil => simp [quadSum, linSum]
  | cons p l ih =>
    rw [List.flatMap_cons, quadSum_append, ih, quadSum_cross_inner]
    simp only [linSum, List.map_cons, List.sum_cons]
    ring

theorem Repn.eval_mulAffine (r1 r2 : Repn) (h1 : r1.isAffine = true)
    (h2 : r2.isAffine = true) (F : Interp) (σ : ℕ → ℚ) :
    (r1.mulAffine r2).eval F σ = r1.eval F σ * r2.eval F σ := by
  obtain ⟨hq1, hn1⟩ := r1.isAffine_parts h1
  obtain ⟨hq2, hn2⟩ := r2.isAffine_parts h2
  unfold Repn.mulAffine Repn.eval
  rw [hq1, hq2, hn1, hn2]
  rw [linSum_append, linSum_scaleR, linSum_scale, quadSum_cross]
  simp only [quadSum, List.map_nil, List.sum_nil]
  ring

/-- Recomposing the standard representation of an expression gives back
its value (proved by structural induction; restated below as the C4
theorem). -/
theorem repn_eval_eq (F : Interp) (e : Expr) (σ : ℕ → ℚ) :
    (e.repn F).eval F σ = e.eval F σ := by
  induction e with
  | const q => simp [Expr.repn, Repn.eval, Expr.eval, linSum, quadSum]
  | var i => simp [Expr.repn, Repn.eval, Expr.eval, linSum, quadSum]
  | add a b iha ihb =>
    simp only [Expr.repn]
    rw [Repn.eval_addR, iha, ihb]
    simp [Expr.eval]
  | mul a b iha ihb =>
    simp only [Expr.repn]
    by_cases h1 : (Expr.repn F a).isConst = true
    · rw [if_pos h1, Repn.eval_scale]
      have hc : (Expr.repn F a).const = a.eval F σ := by
        rw [← Repn.eval_of_isConst _ h1 F σ, iha]
      rw [hc, ihb]
      simp [Expr.eval]
    · rw [if_neg h1]
      by_cases h2 : (Expr.repn F b).isConst = true
      · rw [if_pos h2, Repn.eval_scale]
        have hc : (Expr.repn F b).const = b.eval F σ := by
          rw [← Repn.eval_of_isConst _ h2 F σ, ihb]
        rw [hc, iha]
        simp [Expr.eval]
        ring
      · rw [if_neg h2]
        by_cases h3 : ((Expr.repn F a).isAffine && (Expr.repn F b).isAffine)
            = true
        · rw [if_pos h3]
          obtain ⟨ha, hb⟩ := Bool.and_eq_true_iff.mp h3
          rw [Repn.eval_mulAffine _ _ ha hb, iha, ihb]
          simp [Expr.eval]
        · rw [if_neg h3]
          simp [Repn.eval, Expr.eval, linSum, quadSum]
  | pow a n iha =>
    simp only [Expr.repn]
    by_cases h1 : (Expr.repn F a).isConst = true
    · rw [if_pos h1]
      have hc : (Expr.repn F a).const = a.eval F σ := by
        rw [← Repn.eval_of_isConst _ h1 F σ, iha]
      simp [Repn.eval, Expr.eval, linSum, quadSum, hc]
    · rw [if_neg h1]
      match n with
      | 0 => simp [Repn.eval, Expr.eval, linSum, quadSum]
      | 1 =>
        rw [iha]
        simp [Expr.eval]
      | 2 =>
        by_cases h2 : (Expr.repn F a).isAffine = true
        · rw [if_pos h2, Repn.eval_mulAffine _ _ h2 h2, iha]
          simp [Expr.eval]
          ring
        · rw [if_neg h2]
          simp [Repn.eval, Expr.eval, linSum, quadSum]
      | (m + 3) => simp [Repn.eval, Expr.eval, linSum, quadSum]
  | unary f a iha =>
    simp only [Expr.repn]
    by_cases h1 : (Expr.repn F a).isConst = true
    · rw [if_pos h1]
      have hc : (Expr.repn F a).const = a.eval F σ := by
        rw [← Repn.eval_of_isConst _ h1 F σ, iha]
      simp [Repn.eval, Expr.eval, linSum, quadSum, hc]
    · rw [if_neg h1]
      simp [Repn.eval, Expr.eval, linSum, quadSum]

/-- **C4.** The standard representation decomposes every expression tree
— sums, products, powers and nonlinear intrinsic functions — into
constant, linear (and quadratic), and nonlinear parts whose
recomposition (constant + Σ coefficient·variable + quadratic terms +
nonlinear part) evaluates, under every interpretation of the intrinsic
functions and every assignment of variable values, to exactly the value
of the original expression (numeric semantics are exact rational
arithmetic). -/
theorem repn_recomposition (F : Interp) (e : Expr) (σ : ℕ → ℚ) :
    (e.repn F).eval F σ = e.eval F σ :=
  repn_eval_eq F e σ

/-! ## Classification of expressions (for C5) -/

/-- Modelled from the spec: the classes into which the canonicalization
pass sorts expressions — "constant / linear / quadratic / general
nonlinear". -/
inductive ExprClass
  | constant
  | linear
  | quadratic
  | nonlinear
deriving DecidableEq, Repr

/-- Strength ordering of the classes. -/
def ExprClass.rank : ExprClass → ℕ
  | .constant => 0
  | .linear => 1
  | .quadratic => 2
  | .nonlinear => 3

/-- Total coefficient of variable `i` in a list of linear terms. -/
def coeffAt (l : List (ℕ × ℚ)) (i : ℕ) : ℚ :=
  ((l.filter (fun p => p.1 = i)).map (fun p => p.2)).sum

/-- Total coefficient of the quadratic key `k` in a list of quadratic
terms. -/
def coeffAtQ (l : List ((ℕ × ℕ) × ℚ)) (k : ℕ × ℕ) : ℚ :=
  ((l.filter (fun p => p.1 = k)).map (fun p => p.2)).sum

/-- Class of a standard representation: nonlinear if a general nonlinear
part is present, else quadratic if some quadratic key has a nonzero
merged coefficient, else linear if some variable has a nonzero merged
coefficient, else constant.  Merging and zero-compression mirror the
pass's compression of the collected coefficient lists, so that e.g.
`(x*x)*0` or `x*x - x*x` count as constant. -/
def Repn.classOf (r : Repn) : ExprClass :=
  match r.nonlinear with
  | some _ => .nonlinear
  | none =>
    if r.quad.any (fun p => coeffAtQ r.quad p.1 ≠ 0) then .quadratic
    else if r.linear.any (fun p => coeffAt r.linear p.1 ≠ 0) then .linear
    else .constant

/-- Classification of an expression through its standard representation. -/
def Expr.classify (F : Interp) (e : Expr) : ExprClass := (e.repn F).classOf

theorem nlAdd_eq_none (x y : Option Expr) :
    nlAdd x y = none ↔ x = none ∧ y = none := by
  cases x <;> cases y <;> simp [nlAdd]

theorem Repn.isConst_of_parts (r : Repn) (h1 : r.linear = [])
    (h2 : r.quad = []) (h3 : r.nonlinear = none) : r.isConst = true := by
  simp [Repn.isConst, h1, h2, h3]

theorem Repn.isAffine_of_parts (r : Repn) (h2 : r.quad = [])
    (h3 : r.nonlinear = none) : r.isAffine = true := by
  simp [Repn.isAffine, h2, h3]

theorem Repn.linear_ne_nil_of_affine_not_const (r : Repn)
    (ha : r.isAffine = true) (hc : ¬ r.isConst = true) : r.linear ≠ [] := by
  intro hl
  obtain ⟨hq, hn⟩ := Bool.and_eq_true_iff.mp ha
  exact hc (by simp [Repn.isConst, hl, Repn.isAffine, hq, hn])

theorem flatMap_cross_ne_nil (p : ℕ × ℚ) (l1 : List (ℕ × ℚ))
    (p2 : ℕ × ℚ) (l2 : List (ℕ × ℚ)) :
    (p :: l1).flatMap
        (fun a => (p2 :: l2).map (fun b => (qkey a.1 b.1, a.2 * b.2)))
      ≠ [] := by
  simp [List.flatMap_cons]

theorem repn_isConst_of_no_var (F : Interp) (e : Expr)
    (h : e.hasVar = false) : (e.repn F).isConst = true := by
  induction e with
  | const q => simp [Expr.repn, Repn.isConst]
  | var i => simp [Expr.hasVar] at h
  | add a b iha ihb =>
    rw [Expr.hasVar, Bool.or_eq_false_iff] at h
    obtain ⟨h1, h2, h3⟩ := (a.repn F).isConst_parts (iha h.1)
    obtain ⟨h4, h5, h6⟩ := (b.repn F).isConst_parts (ihb h.2)
    simp only [Expr.repn]
    exact Repn.isConst_of_parts _ (by simp [Repn.addR, h1, h4])
      (by simp [Repn.addR, h2, h5]) (by simp [Repn.addR, h3, h6, nlAdd])
  | mul a b iha ihb =>
    rw [Expr.hasVar, Bool.or_eq_false_iff] at h
    have hca := iha h.1
    obtain ⟨h4, h5, h6⟩ := (b.repn F).isConst_parts (ihb h.2)
    simp only [Expr.repn]
    rw [if_pos hca]
    exact Repn.isConst_of_parts _ (by simp [Repn.scale, h4])
      (by simp [Repn.scale, h5]) (by simp [Repn.scale, h6])
  | pow a n iha =>
    rw [Expr.hasVar] at h
    simp only [Expr.repn]
    rw [if_pos (iha h)]
    rfl
  | unary f a iha =>
    rw [Expr.hasVar] at h
    simp only [Expr.repn]
    rw [if_pos (iha h)]
    rfl

theorem repn_isConst_of_degree_eq_zero (F : Interp) (e : Expr)
    (h : e.degree = 0) : (e.repn F).isConst = true := by
  induction e with
  | const q => simp [Expr.repn, Repn.isConst]
  | var i => simp [Expr.degree] at h
  | add a b iha ihb =>
    rw [Expr.degree, Nat.max_eq_zero_iff] at h
    obtain ⟨h1, h2, h3⟩ := (a.repn F).isConst_parts (iha h.1)
    obtain ⟨h4, h5, h6⟩ := (b.repn F).isConst_parts (ihb h.2)
    simp only [Expr.repn]
    exact Repn.isConst_of_parts _ (by simp [Repn.addR, h1, h4])
      (by simp [Repn.addR, h2, h5]) (by simp [Repn.addR, h3, h6, nlAdd])
  | mul a b iha ihb =>
    rw [Expr.degree, Nat.add_eq_zero] at h
    have hca := iha h.1
    obtain ⟨h4, h5, h6⟩ := (b.repn F).isConst_parts (ihb h.2)
    simp only [Expr.repn]
    rw [if_pos hca]
    exact Repn.isConst_of_parts _ (by simp [Repn.scale, h4])
      (by simp [Repn.scale, h5]) (by simp [Repn.scale, h6])
  | pow a n iha =>
    rw [Expr.degree] at h
    simp only [Expr.repn]
    by_cases hc : (Expr.repn F a).isConst = true
    · rw [if_pos hc]
      rfl
    · rw [if_neg hc]
      by_cases hn : n = 0
      · subst hn
        rfl
      · rw [if_neg hn] at h
        have h0 : a.degree = 0 := by
          rcases Nat.mul_eq_zero.mp h with h0 | h0
          · exact h0
          · exact absurd h0 hn
        exact absurd (iha h0) hc
  | unary f a iha =>
    rw [Expr.degree] at h
    simp only [Expr.repn]
    by_cases h0 : a.degree = 0
    · rw [if_pos (iha h0)]
      rfl
    · rw [if_neg h0] at h
      cases h

theorem degree_eq_zero_of_repn_isConst (F : Interp) (e : Expr)
    (h : (e.repn F).isConst = true) : e.degree = 0 := by
  induction e with
  | const q => rfl
  | var i => simp [Expr.repn, Repn.isConst] at h
  | add a b iha ihb =>
    simp only [Expr.repn] at h
    obtain ⟨h1, h2, h3⟩ := Repn.isConst_parts _ h
    simp only [Repn.addR, List.append_eq_nil] at h1 h2
    simp only [Repn.addR] at h3
    rw [nlAdd_eq_none] at h3
    rw [Expr.degree, Nat.max_eq_zero_iff]
    exact ⟨iha (Repn.isConst_of_parts _ h1.1 h2.1 h3.1),
      ihb (Repn.isConst_of_parts _ h1.2 h2.2 h3.2)⟩
  | mul a b iha ihb =>
    simp only [Expr.repn] at h
    rw [Expr.degree, Nat.add_eq_zero]
    by_cases hc1 : (Expr.repn F a).isConst = true
    · rw [if_pos hc1] at h
      obtain ⟨h1, h2, h3⟩ := Repn.isConst_parts _ h
      simp only [Repn.scale, List.map_eq_nil_iff, Option.map_eq_none'] at h1 h2 h3
      exact ⟨iha hc1, ihb (Repn.isConst_of_parts _ h1 h2 h3)⟩
    · rw [if_neg hc1] at h
      by_cases hc2 : (Expr.repn F b).isConst = true
      · rw [if_pos hc2] at h
        obtain ⟨h1, h2, h3⟩ := Repn.isConst_parts _ h
        simp only [Repn.scale, List.map_eq_nil_iff, Option.map_eq_none'] at h1 h2 h3
        exact ⟨iha (Repn.isConst_of_parts _ h1 h2 h3), ihb hc2⟩
      · rw [if_neg hc2] at h
        by_cases hc3 : ((Expr.repn F a).isAffine && (Expr.repn F b).isAffine)
            = true
        · rw [if_pos hc3] at h
          obtain ⟨ha, hb⟩ := Bool.and_eq_true_iff.mp hc3
          obtain ⟨h1, h2, h3⟩ := Repn.isConst_parts _ h
          simp only [Repn.mulAffine, List.append_eq_nil,
            List.map_eq_nil_iff] at h1
          exact absurd h1.1
            (Repn.linear_ne_nil_of_affine_not_const _ ha hc1)
        · rw [if_neg hc3] at h
          simp [Repn.isConst] at h
  | pow a n iha =>
    simp only [Expr.repn] at h
    rw [Expr.degree]
    by_cases hc : (Expr.repn F a).isConst = true
    · rw [if_pos hc] at h
      rw [iha hc]
      by_cases hn : n = 0 <;> simp [hn]
    · rw [if_neg hc] at h
      match n, h with
      | 0, h => rfl
      | 1, h => exact absurd h hc
      | 2, h =>
        by_cases haf : (Expr.repn F a).isAffine = true
        · rw [if_pos haf] at h
          obtain ⟨h1, h2, h3⟩ := Repn.isConst_parts _ h
          simp only [Repn.mulAffine, List.append_eq_nil,
            List.map_eq_nil_iff] at h1
          exact absurd h1.1
            (Repn.linear_ne_nil_of_affine_not_const _ haf hc)
        · rw [if_neg haf] at h
          simp [Repn.isConst] at h
      | (m + 3), h => simp [Repn.isConst] at h
  | unary f a iha =>
    simp only [Expr.repn] at h
    rw [Expr.degree]
    by_cases hc : (Expr.repn F a).isConst = true
    · rw [iha hc]
      rfl
    · rw [if_neg hc] at h
      simp [Repn.isConst] at h

theorem degree_le_one_of_affine (F : Interp) (e : Expr)
    (h : (e.repn F).isAffine = true) : e.degree ≤ 1 := by
  induction e with
  | const q => simp [Expr.degree]
  | var i => simp [Expr.degree]
  | add a b iha ihb =>
    simp only [Expr.repn] at h
    obtain ⟨h2, h3⟩ := Repn.isAffine_parts _ h
    simp only [Repn.addR, List.append_eq_nil] at h2
    simp only [Repn.addR] at h3
    rw [nlAdd_eq_none] at h3
    rw [Expr.degree, Nat.max_le]
    exact ⟨iha (Repn.isAffine_of_parts _ h2.1 h3.1),
      ihb (Repn.isAffine_of_parts _ h2.2 h3.2)⟩
  | mul a b iha ihb =>
    simp only [Expr.repn] at h
    rw [Expr.degree]
    by_cases hc1 : (Expr.repn F a).isConst = true
    · rw [if_pos hc1] at h
      obtain ⟨h2, h3⟩ := Repn.isAffine_parts _ h
      simp only [Repn.scale, List.map_eq_nil_iff, Option.map_eq_none'] at h2 h3
      have hb := ihb (Repn.isAffine_of_parts _ h2 h3)
      have ha := degree_eq_zero_of_repn_isConst F a hc1
      omega
    · rw [if_neg hc1] at h
      by_cases hc2 : (Expr.repn F b).isConst = true
      · rw [if_pos hc2] at h
        obtain ⟨h2, h3⟩ := Repn.isAffine_parts _ h
        simp only [Repn.scale, List.map_eq_nil_iff, Option.map_eq_none'] at h2 h3
        have ha := iha (Repn.isAffine_of_parts _ h2 h3)
        have hb := degree_eq_zero_of_repn_isConst F b hc2
        omega
      · rw [if_neg hc2] at h
        by_cases hc3 : ((Expr.repn F a).isAffine && (Expr.repn F b).isAffine)
            = true
        · rw [if_pos hc3] at h
          obtain ⟨haf, hbf⟩ := Bool.and_eq_true_iff.mp hc3
          obtain ⟨h2, -⟩ := Repn.isAffine_parts _ h
          obtain ⟨pa, la, hla⟩ := List.exists_cons_of_ne_nil
            (Repn.linear_ne_nil_of_affine_not_const _ haf hc1)
          obtain ⟨pb, lb, hlb⟩ := List.exists_cons_of_ne_nil
            (Repn.linear_ne_nil_of_affine_not_const _ hbf hc2)
          rw [Repn.mulAffine] at h2
          simp only [hla, hlb] at h2
          exact absurd h2 (flatMap_cross_ne_nil pa la pb lb)
        · rw [if_neg hc3] at h
          obtain ⟨-, h3⟩ := Repn.isAffine_parts _ h
          simp at h3
  | pow a n iha =>
    simp only [Expr.repn] at h
    rw [Expr.degree]
    by_cases hc : (Expr.repn F a).isConst = true
    · have h0 := degree_eq_zero_of_repn_isConst F a hc
      rw [h0]
      by_cases hn : n = 0 <;> simp [hn]
    · rw [if_neg hc] at h
      match n, h with
      | 0, h => simp
      | 1, h =>
        have := iha h
        simpa using this
      | 2, h =>
        by_cases haf : (Expr.repn F a).isAffine = true
        · rw [if_pos haf] at h
          obtain ⟨h2, -⟩ := Repn.isAffine_parts _ h
          obtain ⟨pa, la, hla⟩ := List.exists_cons_of_ne_nil
            (Repn.linear_ne_nil_of_affine_not_const _ haf hc)
          rw [Repn.mulAffine] at h2
          simp only [hla] at h2
          exact absurd h2 (flatMap_cross_ne_nil pa la pa la)
        · rw [if_neg haf] at h
          obtain ⟨-, h3⟩ := Repn.isAffine_parts _ h
          simp at h3
      | (m + 3), h =>
        obtain ⟨-, h3⟩ := Repn.isAffine_parts _ h
        simp at h3
  | unary f a iha =>
    simp only [Expr.repn] at h
    rw [Expr.degree]
    by_cases hc : (Expr.repn F a).isConst = true
    · rw [degree_eq_zero_of_repn_isConst F a hc]
      simp
    · rw [if_neg hc] at h
      obtain ⟨-, h3⟩ := Repn.isAffine_parts _ h
      simp at h3

theorem affine_of_degree_le_one (F : Interp) (e : Expr) (h : e.degree ≤ 1) :
    (e.repn F).isAffine = true := by
  induction e with
  | const q => simp [Expr.repn, Repn.isAffine]
  | var i => simp [Expr.repn, Repn.isAffine]
  | add a b iha ihb =>
    rw [Expr.degree, Nat.max_le] at h
    obtain ⟨h2, h3⟩ := Repn.isAffine_parts _ (iha h.1)
    obtain ⟨h4, h5⟩ := Repn.isAffine_parts _ (ihb h.2)
    simp only [Expr.repn]
    exact Repn.isAffine_of_parts _ (by simp [Repn.addR, h2, h4])
      (by simp [Repn.addR, h3, h5, nlAdd])
  | mul a b iha ihb =>
    rw [Expr.degree] at h
    simp only [Expr.repn]
    by_cases hc1 : (Expr.repn F a).isConst = true
    · rw [if_pos hc1]
      obtain ⟨h2, h3⟩ := Repn.isAffine_parts _ (ihb (by omega))
      exact Repn.isAffine_of_parts _ (by simp [Repn.scale, h2])
        (by simp [Repn.scale, h3])
    · rw [if_neg hc1]
      by_cases hc2 : (Expr.repn F b).isConst = true
      · rw [if_pos hc2]
        obtain ⟨h2, h3⟩ := Repn.isAffine_parts _ (iha (by omega))
        exact Repn.isAffine_of_parts _ (by simp [Repn.scale, h2])
          (by simp [Repn.scale, h3])
      · exfalso
        have hda : a.degree ≠ 0 :=
          fun h0 => hc1 (repn_isConst_of_degree_eq_zero F a h0)
        have hdb : b.degree ≠ 0 :=
          fun h0 => hc2 (repn_isConst_of_degree_eq_zero F b h0)
        omega
  | pow a n iha =>
    rw [Expr.degree] at h
    simp only [Expr.repn]
    by_cases hc : (Expr.repn F a).isConst = true
    · rw [if_pos hc]
      simp [Repn.isAffine]
    · rw [if_neg hc]
      by_cases hn : n = 0
      · subst hn
        simp [Repn.isAffine]
      · rw [if_neg hn] at h
        have hda : a.degree ≠ 0 :=
          fun h0 => hc (repn_isConst_of_degree_eq_zero F a h0)
        have hle1 : n ≤ a.degree * n := Nat.le_mul_of_pos_left n (by omega)
        have hle2 : a.degree ≤ a.degree * n :=
          Nat.le_mul_of_pos_right a.degree (by omega)
        have hn1 : n = 1 := by omega
        subst hn1
        exact iha (by omega)
  | unary f a iha =>
    rw [Expr.degree] at h
    simp only [Expr.repn]
    by_cases h0 : a.degree = 0
    · rw [if_pos (repn_isConst_of_degree_eq_zero F a h0)]
      simp [Repn.isAffine]
    · rw [if_neg h0] at h
      omega

theorem nl_none_of_degree_le_two (F : Interp) (e : Expr) (h : e.degree ≤ 2) :
    (e.repn F).nonlinear = none := by
  induction e with
  | const q => rfl
  | var i => rfl
  | add a b iha ihb =>
    rw [Expr.degree, Nat.max_le] at h
    simp only [Expr.repn, Repn.addR]
    rw [nlAdd_eq_none]
    exact ⟨iha h.1, ihb h.2⟩
  | mul a b iha ihb =>
    rw [Expr.degree] at h
    simp only [Expr.repn]
    by_cases hc1 : (Expr.repn F a).isConst = true
    · rw [if_pos hc1]
      simp only [Repn.scale, Option.map_eq_none']
      exact ihb (by omega)
    · rw [if_neg hc1]
      by_cases hc2 : (Expr.repn F b).isConst = true
      · rw [if_pos hc2]
        simp only [Repn.scale, Option.map_eq_none']
        exact iha (by omega)
      · rw [if_neg hc2]
        have hda : a.degree ≠ 0 :=
          fun h0 => hc1 (repn_isConst_of_degree_eq_zero F a h0)
        have hdb : b.degree ≠ 0 :=
          fun h0 => hc2 (repn_isConst_of_degree_eq_zero F b h0)
        have hc3 : ((Expr.repn F a).isAffine && (Expr.repn F b).isAffine)
            = true := by
          rw [Bool.and_eq_true_iff]
          exact ⟨affine_of_degree_le_one F a (by omega),
            affine_of_degree_le_one F b (by omega)⟩
        rw [if_pos hc3]
        rfl
  | pow a n iha =>
    rw [Expr.degree] at h
    simp only [Expr.repn]
    by_cases hc : (Expr.repn F a).isConst = true
    · rw [if_pos hc]
    · rw [if_neg hc]
      by_cases hn : n = 0
      · subst hn
        rfl
      · rw [if_neg hn] at h
        have hda : a.degree ≠ 0 :=
          fun h0 => hc (repn_isConst_of_degree_eq_zero F a h0)
        have hle1 : n ≤ a.degree * n := Nat.le_mul_of_pos_left n (by omega)
        have hle2 : a.degree ≤ a.degree * n :=
          Nat.le_mul_of_pos_right a.degree (by omega)
        match n, hn, h, hle1 with
        | 0, hn, h, hle1 => exact absurd rfl hn
        | 1, hn, h, hle1 => exact iha (by omega)
        | 2, hn, h, hle1 =>
          have haf : (Expr.repn F a).isAffine = true :=
            affine_of_degree_le_one F a (by omega)
          rw [if_pos haf]
          rfl
        | (m + 3), hn, h, hle1 => exact absurd h (by omega)
  | unary f a iha =>
    rw [Expr.degree] at h
    simp only [Expr.repn]
    by_cases h0 : a.degree = 0
    · rw [if_pos (repn_isConst_of_degree_eq_zero F a h0)]
    · rw [if_neg h0] at h
      omega

theorem degree_le_two_of_nl_none (F : Interp) (e : Expr)
    (h : (e.repn F).nonlinear = none) : e.degree ≤ 2 := by
  induction e with
  | const q => simp [Expr.degree]
  | var i => simp [Expr.degree]
  | add a b iha ihb =>
    simp only [Expr.repn, Repn.addR] at h
    rw [nlAdd_eq_none] at h
    rw [Expr.degree, Nat.max_le]
    exact ⟨iha h.1, ihb h.2⟩
  | mul a b iha ihb =>
    simp only [Expr.repn] at h
    rw [Expr.degree]
    by_cases hc1 : (Expr.repn F a).isConst = true
    · rw [if_pos hc1] at h
      simp only [Repn.scale, Option.map_eq_none'] at h
      have := degree_eq_zero_of_repn_isConst F a hc1
      have := ihb h
      omega
    · rw [if_neg hc1] at h
      by_cases hc2 : (Expr.repn F b).isConst = true
      · rw [if_pos hc2] at h
        simp only [Repn.scale, Option.map_eq_none'] at h
        have := degree_eq_zero_of_repn_isConst F b hc2
        have := iha h
        omega
      · rw [if_neg hc2] at h
        by_cases hc3 : ((Expr.repn F a).isAffine && (Expr.repn F b).isAffine)
            = true
        · obtain ⟨haf, hbf⟩ := Bool.and_eq_true_iff.mp hc3
          have := degree_le_one_of_affine F a haf
          have := degree_le_one_of_affine F b hbf
          omega
        · rw [if_neg hc3] at h
          cases h
  | pow a n iha =>
    simp only [Expr.repn] at h
    rw [Expr.degree]
    by_cases hc : (Expr.repn F a).isConst = true
    · have := degree_eq_zero_of_repn_isConst F a hc
      by_cases hn : n = 0 <;> simp [hn, this]
    · rw [if_neg hc] at h
      match n, h with
      | 0, h => simp
      | 1, h =>
        have := iha h
        simpa using this
      | 2, h =>
        by_cases haf : (Expr.repn F a).isAffine = true
        · have := degree_le_one_of_affine F a haf
          simp only [OfNat.ofNat_ne_zero, if_false]
          omega
        · rw [if_neg haf] at h
          cases h
      | (m + 3), h => cases h
  | unary f a iha =>
    simp only [Expr.repn] at h
    rw [Expr.degree]
    by_cases hc : (Expr.repn F a).isConst = true
    · rw [degree_eq_zero_of_repn_isConst F a hc]
      simp
    · rw [if_neg hc] at h
      cases h

/-! Bilinear analysis of the quadratic part: the tools used to prove that
a semantically affine expression has only vanishing merged quadratic
coefficients. -/

/-- The bilinear cross term produced when a quadratic part is evaluated
at the sum of two assignments. -/
def crossSum (σ τ : ℕ → ℚ) (l : List ((ℕ × ℕ) × ℚ)) : ℚ :=
  (l.map (fun p => p.2 * (σ p.1.1 * τ p.1.2 + τ p.1.1 * σ p.1.2))).sum

theorem linSum_addAssign (σ τ : ℕ → ℚ) (l : List (ℕ × ℚ)) :
    linSum (fun k => σ k + τ k) l = linSum σ l + linSum τ l := by
  induction l with
  | nil => simp [linSum]
  | cons p l ih =>
    simp only [linSum, List.map_cons, List.sum_cons] at ih ⊢
    rw [ih]
    ring

theorem linSum_zeroAssign (l : List (ℕ × ℚ)) :
    linSum (fun _ => 0) l = 0 := by
  induction l with
  | nil => simp [linSum]
  | cons p l ih =>
    simp only [linSum, List.map_cons, List.sum_cons] at ih ⊢
    rw [ih]
    ring

theorem quadSum_zeroAssign (l : List ((ℕ × ℕ) × ℚ)) :
    quadSum (fun _ => 0) l = 0 := by
  induction l with
  | nil => simp [quadSum]
  | cons p l ih =>
    simp only [quadSum, List.map_cons, List.sum_cons] at ih ⊢
    rw [ih]
    ring

theorem quadSum_addAssign (σ τ : ℕ → ℚ) (l : List ((ℕ × ℕ) × ℚ)) :
    quadSum (fun k => σ k + τ k) l
      = quadSum σ l + quadSum τ l + crossSum σ τ l := by
  induction l with
  | nil => simp [quadSum, crossSum]
  | cons p l ih =>
    simp only [quadSum, crossSum, List.map_cons, List.sum_cons] at ih ⊢
    rw [ih]
    ring

/-- Indicator assignment of a single variable. -/
def delta (i : ℕ) : ℕ → ℚ := fun k => if k = i then 1 else 0

/-- Evaluating the cross term at two indicator assignments extracts the
merged coefficient of one normalized key. -/
theorem crossSum_delta (i j : ℕ) (hij : i ≤ j) :
    ∀ l : List ((ℕ × ℕ) × ℚ), (∀ p ∈ l, p.1.1 ≤ p.1.2) →
      crossSum (delta i) (delta j) l
        = (if i = j then 2 else 1) * coeffAtQ l (i, j)
  | [], _ => by simp [crossSum, coeffAtQ]
  | p :: l, hnorm => by
    have hrest := crossSum_delta i j hij l
      (fun q hq => hnorm q (List.mem_cons_of_mem _ hq))
    have hcons : crossSum (delta i) (delta j) (p :: l)
        = p.2 * (delta i p.1.1 * delta j p.1.2
            + delta j p.1.1 * delta i p.1.2)
          + crossSum (delta i) (delta j) l := by
      unfold crossSum
      rw [List.map_cons, List.sum_cons]
    obtain ⟨⟨a, b⟩, c⟩ := p
    have hn : a ≤ b := hnorm ((a, b), c) (List.mem_cons_self _ _)
    by_cases hkey : (a, b) = (i, j)
    · obtain ⟨ha, hb⟩ := Prod.mk.injEq a b i j ▸ hkey
      subst ha
      subst hb
      have hcoeff : coeffAtQ (((a, b), c) :: l) (a, b)
          = c + coeffAtQ l (a, b) := by
        unfold coeffAtQ
        rw [List.filter_cons, if_pos (by simp), List.map_cons, List.sum_cons]
      rw [hcons, hrest, hcoeff]
      have h1 : delta a a * delta b b + delta b a * delta a b
          = if a = b then 2 else 1 := by
        unfold delta
        rw [if_pos rfl, if_pos rfl]
        by_cases he : a = b
        · subst he
          norm_num
        · have he2 : ¬ b = a := fun hh => he hh.symm
          rw [if_neg he2, if_neg he, if_neg he]
          norm_num
      show c * (delta a a * delta b b + delta b a * delta a b) + _ = _
      rw [h1]
      by_cases he : a = b
      · rw [if_pos he]
        ring
      · rw [if_neg he]
        ring
    · have hcoeff : coeffAtQ (((a, b), c) :: l) (i, j)
          = coeffAtQ l (i, j) := by
        unfold coeffAtQ
        rw [List.filter_cons, if_neg (by simpa using hkey)]
      have hfirst : delta i a * delta j b = 0 := by
        unfold delta
        by_cases e1 : a = i
        · by_cases e2 : b = j
          · exact absurd (by rw [e1, e2]) hkey
          · rw [if_neg e2, mul_zero]
        · rw [if_neg e1, zero_mul]
      have hsecond : delta j a * delta i b = 0 := by
        unfold delta
        by_cases e3 : a = j
        · by_cases e4 : b = i
          · exfalso
            apply hkey
            have : a = i ∧ b = j := by omega
            rw [this.1, this.2]
          · rw [if_neg e4, mul_zero]
        · rw [if_neg e3, zero_mul]
      rw [hcons, hrest, hcoeff]
      show c * (delta i a * delta j b + delta j a * delta i b) + _ = _
      rw [hfirst, hsecond]
      ring

theorem qkey_normalized (i j : ℕ) : (qkey i j).1 ≤ (qkey i j).2 := by
  unfold qkey
  by_cases h : i ≤ j
  · rw [if_pos h]
    exact h
  · rw [if_neg h]
    omega

/-- Every quadratic key produced by the repn pass is normalized
(first index ≤ second index). -/
theorem repn_quad_normalized (F : Interp) (e : Expr) :
    ∀ p ∈ (e.repn F).quad, p.1.1 ≤ p.1.2 := by
  induction e with
  | const q => intro p hp; cases hp
  | var i => intro p hp; cases hp
  | add a b iha ihb =>
    intro p hp
    simp only [Expr.repn, Repn.addR, List.mem_append] at hp
    rcases hp with hp | hp
    · exact iha p hp
    · exact ihb p hp
  | mul a b iha ihb =>
    intro p hp
    simp only [Expr.repn] at hp
    by_cases hc1 : (Expr.repn F a).isConst = true
    · rw [if_pos hc1] at hp
      simp only [Repn.scale, List.mem_map] at hp
      obtain ⟨q, hq, rfl⟩ := hp
      exact ihb q hq
    · rw [if_neg hc1] at hp
      by_cases hc2 : (Expr.repn F b).isConst = true
      · rw [if_pos hc2] at hp
        simp only [Repn.scale, List.mem_map] at hp
        obtain ⟨q, hq, rfl⟩ := hp
        exact iha q hq
      · rw [if_neg hc2] at hp
        by_cases hc3 : ((Expr.repn F a).isAffine && (Expr.repn F b).isAffine)
            = true
        · rw [if_pos hc3] at hp
          simp only [Repn.mulAffine, List.mem_flatMap, List.mem_map] at hp
          obtain ⟨q, -, q2, -, rfl⟩ := hp
          exact qkey_normalized q.1 q2.1
        · rw [if_neg hc3] at hp
          cases hp
  | pow a n iha =>
    intro p hp
    simp only [Expr.repn] at hp
    by_cases hc : (Expr.repn F a).isConst = true
    · rw [if_pos hc] at hp
      cases hp
    · rw [if_neg hc] at hp
      match n, hp with
      | 0, hp => cases hp
      | 1, hp => exact iha p hp
      | 2, hp =>
        by_cases haf : (Expr.repn F a).isAffine = true
        · rw [if_pos haf] at hp
          simp only [Repn.mulAffine, List.mem_flatMap, List.mem_map] at hp
          obtain ⟨q, -, q2, -, rfl⟩ := hp
          exact qkey_normalized q.1 q2.1
        · rw [if_neg haf] at hp
          cases hp
      | (m + 3), hp => cases hp
  | unary f a iha =>
    intro p hp
    simp only [Expr.repn] at hp
    by_cases hc : (Expr.repn F a).isConst = true
    · rw [if_pos hc] at hp
      cases hp
    · rw [if_neg hc] at hp
      cases hp

/-- **C5.** The canonicalization/repn pass classifies every expression
into exactly one of constant / linear / quadratic / general nonlinear
(`Repn.classOf` is a total function into `ExprClass`), for every
interpretation of the nonlinear intrinsics, and the class is sound: an
expression containing no variables is classified constant (nonlinear
intrinsics of constants are folded), an expression of syntactic degree at
most one is classified at most linear, an expression of total polynomial
degree at most two is classified at most quadratic, every other
expression (degree three or more — including any nonlinear intrinsic
applied to a variable) is classified general nonlinear, and —
linearization — an expression the pass represents without a general
nonlinear part whose value is an affine function of the assignment is
classified at most linear, even when its syntactic degree is two
(e.g. `(x*x)*0`). -/
theorem repn_classification (F : Interp) (e : Expr) :
    (e.hasVar = false → e.classify F = .constant)
      ∧ (e.degree ≤ 1 → (e.classify F).rank ≤ ExprClass.rank .linear)
      ∧ (e.degree ≤ 2 → (e.classify F).rank ≤ ExprClass.rank .quadratic)
      ∧ (3 ≤ e.degree → e.classify F = .nonlinear)
      ∧ ((e.repn F).nonlinear = none →
        (∀ σ τ, e.eval F (fun k => σ k + τ k) + e.eval F (fun _ => 0)
          = e.eval F σ + e.eval F τ) →
        (e.classify F).rank ≤ ExprClass.rank .linear) := by
  refine ⟨?_, ?_, ?_, ?_, ?_⟩
  · intro h
    obtain ⟨h1, h2, h3⟩ :=
      Repn.isConst_parts _ (repn_isConst_of_no_var F e h)
    unfold Expr.classify Repn.classOf
    rw [h1, h2, h3]
    rfl
  · intro h
    obtain ⟨h2, h3⟩ := Repn.isAffine_parts _ (affine_of_degree_le_one F e h)
    unfold Expr.classify Repn.classOf
    rw [h2, h3]
    simp only [List.any_nil, Bool.false_eq_true, if_false]
    split <;> simp [ExprClass.rank]
  · intro h
    have h3 := nl_none_of_degree_le_two F e h
    unfold Expr.classify Repn.classOf
    rw [h3]
    split <;> try split
    · simp_all
    · simp [ExprClass.rank]
    · split <;> simp [ExprClass.rank]
  · intro h
    cases hnl : (e.repn F).nonlinear with
    | none =>
      have := degree_le_two_of_nl_none F e hnl
      omega
    | some x =>
      unfold Expr.classify Repn.classOf
      rw [hnl]
  · intro hnl haff
    have heval : ∀ σ, e.eval F σ = (e.repn F).const
        + linSum σ (e.repn F).linear + quadSum σ (e.repn F).quad := by
      intro σ
      rw [← repn_eval_eq F e σ]
      unfold Repn.eval
      rw [hnl]
      simp
    have hcross : ∀ σ τ, crossSum σ τ (e.repn F).quad = 0 := by
      intro σ τ
      have h0 := haff σ τ
      rw [heval, heval, heval, heval, linSum_addAssign, linSum_zeroAssign,
        quadSum_zeroAssign, quadSum_addAssign] at h0
      linarith
    have hcoeff : ∀ p ∈ (e.repn F).quad,
        coeffAtQ (e.repn F).quad p.1 = 0 := by
      intro p hp
      have hn := repn_quad_normalized F e p hp
      have hc := hcross (delta p.1.1) (delta p.1.2)
      rw [crossSum_delta p.1.1 p.1.2 hn _ (repn_quad_normalized F e)] at hc
      by_cases he : p.1.1 = p.1.2
      · rw [if_pos he] at hc
        have : (p.1.1, p.1.2) = p.1 := rfl
        rw [this] at hc
        linarith
      · rw [if_neg he] at hc
        have : (p.1.1, p.1.2) = p.1 := rfl
        rw [this] at hc
        linarith
    have hany : (e.repn F).quad.any
        (fun p => coeffAtQ (e.repn F).quad p.1 ≠ 0) = false := by
      rw [List.any_eq_false]
      intro p hp
      simp [hcoeff p hp]
    unfold Expr.classify Repn.classOf
    rw [hnl]
    rw [hany]
    simp only [Bool.false_eq_true, if_false]
    split <;> simp [ExprClass.rank]

/-- Interpretation used to instantiate witnesses (the theorems hold for
every interpretation). -/
def zeroInterp : Interp := fun _ _ => 0

/-- Witness for C5 at concrete inputs. -/
theorem repn_classification_witness :
    ((Expr.unary .sin (Expr.const 2)).hasVar = false
      ∧ (Expr.unary .sin (Expr.const 2)).classify zeroInterp = .constant)
      ∧ ((Expr.add (.var 0) (.const 1)).degree ≤ 1
        ∧ ((Expr.add (.var 0) (.const 1)).classify zeroInterp).rank
            ≤ ExprClass.rank .linear)
      ∧ ((Expr.pow (.var 0) 2).degree ≤ 2
        ∧ ((Expr.pow (.var 0) 2).classify zeroInterp).rank
            ≤ ExprClass.rank .quadratic)
      ∧ (3 ≤ (Expr.unary .sin (.var 0)).degree
        ∧ (Expr.unary .sin (.var 0)).classify zeroInterp = .nonlinear)
      ∧ (((Expr.mul (Expr.mul (.var 0) (.var 0)) (.const 0)).repn
            zeroInterp).nonlinear = none
        ∧ ((Expr.mul (Expr.mul (.var 0) (.var 0))
            (.const 0)).classify zeroInterp).rank
            ≤ ExprClass.rank .linear) :=
  ⟨⟨by decide, (repn_classification zeroInterp
      (Expr.unary .sin (Expr.const 2))).1 (by decide)⟩,
   ⟨by decide, (repn_classification zeroInterp
      (Expr.add (.var 0) (.const 1))).2.1 (by decide)⟩,
   ⟨by decide, (repn_classification zeroInterp
      (Expr.pow (.var 0) 2)).2.2.1 (by decide)⟩,
   ⟨by decide, (repn_classification zeroInterp
      (Expr.unary .sin (.var 0))).2.2.2.1 (by decide)⟩,
   ⟨by with_unfolding_all decide,
    (repn_classification zeroInterp
      (Expr.mul (Expr.mul (.var 0) (.var 0)) (.const 0))).2.2.2.2
      (by with_unfolding_all decide)
      (by
        intro σ τ
        simp [Expr.eval])⟩⟩

/-! ## Canonical ordering of repn terms (for the writer)

The orders used to sort variables, quadratic keys and row names are
spelled out as structurally recursive functions so that every writer
run can be evaluated inside the logic. -/

/-- Lexicographic comparison of character lists. -/
def charsLEb : List Char → List Char → Bool
  | [], _ => true
  | _ :: _, [] => false
  | a :: as, b :: bs =>
    if a < b then true
    else if b < a then false
    else charsLEb as bs

/-- Lexicographic order on strings (by their character lists). -/
def strLE (s t : String) : Prop := charsLEb s.data t.data = true

instance : DecidableRel strLE := fun s t => by unfold strLE; infer_instance

theorem charsLEb_total : ∀ as bs, charsLEb as bs = true ∨ charsLEb bs as = true
  | [], _ => Or.inl rfl
  | _ :: _, [] => Or.inr rfl
  | a :: as, b :: bs => by
    rw [charsLEb, charsLEb]
    rcases lt_trichotomy a b with h | h | h
    · left
      rw [if_pos h]
    · subst h
      have hne : ¬ a < a := lt_irrefl a
      rw [if_neg hne, if_neg hne, if_neg hne, if_neg hne]
      exact charsLEb_total as bs
    · right
      rw [if_pos h]

theorem charsLEb_trans : ∀ as bs cs, charsLEb as bs = true →
    charsLEb bs cs = true → charsLEb as cs = true
  | [], _, _, _, _ => rfl
  | _ :: _, [], _, h1, _ => by rw [charsLEb] at h1; cases h1
  | _ :: _, _ :: _, [], _, h2 => by rw [charsLEb] at h2; cases h2
  | a :: as, b :: bs, c :: cs, h1, h2 => by
    rw [charsLEb] at h1 h2 ⊢
    rcases lt_trichotomy a b with hab | hab | hab
    · rcases lt_trichotomy b c with hbc | hbc | hbc
      · rw [if_pos (lt_trans hab hbc)]
      · subst hbc
        rw [if_pos hab]
      · rw [if_neg (not_lt.mpr (le_of_lt hbc)), if_pos hbc] at h2
        cases h2
    · subst hab
      rw [if_neg (lt_irrefl a), if_neg (lt_irrefl a)] at h1
      rcases lt_trichotomy a c with hac | hac | hac
      · rw [if_pos hac]
      · subst hac
        rw [if_neg (lt_irrefl a), if_neg (lt_irrefl a)] at h2 ⊢
        exact charsLEb_trans as bs cs h1 h2
      · rw [if_neg (not_lt.mpr (le_of_lt hac)), if_pos hac] at h2
        cases h2
    · rw [if_neg (not_lt.mpr (le_of_lt hab)), if_pos hab] at h1
      cases h1

theorem charsLEb_antisymm : ∀ as bs, charsLEb as bs = true →
    charsLEb bs as = true → as = bs
  | [], [], _, _ => rfl
  | [], _ :: _, _, h2 => by rw [charsLEb] at h2; cases h2
  | _ :: _, [], h1, _ => by rw [charsLEb] at h1; cases h1
  | a :: as, b :: bs, h1, h2 => by
    rw [charsLEb] at h1 h2
    rcases lt_trichotomy a b with hab | hab | hab
    · rw [if_neg (not_lt.mpr (le_of_lt hab)), if_pos hab] at h2
      cases h2
    · subst hab
      rw [if_neg (lt_irrefl a), if_neg (lt_irrefl a)] at h1 h2
      rw [charsLEb_antisymm as bs h1 h2]
    · rw [if_neg (not_lt.mpr (le_of_lt hab)), if_pos hab] at h1
      cases h1

instance : IsTotal String strLE := ⟨fun s t => charsLEb_total s.data t.data⟩

instance : IsTrans String strLE :=
  ⟨fun s t u => charsLEb_trans s.data t.data u.data⟩

instance : IsAntisymm String strLE :=
  ⟨fun s t h1 h2 => by
    cases s
    cases t
    exact congrArg String.mk (charsLEb_antisymm _ _ h1 h2)⟩

/-- Order on (normalized) quadratic keys: by first index, then second. -/
def quadKeyLE (a b : ℕ × ℕ) : Prop :=
  a.1 < b.1 ∨ (a.1 = b.1 ∧ a.2 ≤ b.2)

instance : DecidableRel quadKeyLE := fun a b => by
  unfold quadKeyLE
  infer_instance

instance : IsTotal (ℕ × ℕ) quadKeyLE :=
  ⟨fun a b => by unfold quadKeyLE; omega⟩

instance : IsTrans (ℕ × ℕ) quadKeyLE :=
  ⟨fun a b c => by unfold quadKeyLE; omega⟩

instance : IsAntisymm (ℕ × ℕ) quadKeyLE :=
  ⟨fun a b h1 h2 => by
    obtain ⟨a1, a2⟩ := a
    obtain ⟨b1, b2⟩ := b
    unfold quadKeyLE at h1 h2
    simp only [Prod.mk.injEq]
    omega⟩

/-- Sorting a deduplicated list is invariant under permutation of the
input. -/
theorem insertionSort_dedup_eq_of_perm {α : Type} [DecidableEq α]
    (r : α → α → Prop) [DecidableRel r] [IsTotal α r] [IsTrans α r]
    [IsAntisymm α r] {l1 l2 : List α} (h : l1.Perm l2) :
    List.insertionSort r l1.dedup = List.insertionSort r l2.dedup :=
  List.eq_of_perm_of_sorted
    ((List.perm_insertionSort r _).trans
      ((h.dedup).trans (List.perm_insertionSort r _).symm))
    (List.sorted_insertionSort r _) (List.sorted_insertionSort r _)

/-- The variable indices of a linear-term list, in increasing order. -/
def linKeys (l : List (ℕ × ℚ)) : List ℕ :=
  List.insertionSort (· ≤ ·) (l.map Prod.fst).dedup

/-- Canonical form of a linear part: one entry per variable, in
increasing variable order, with merged coefficients. -/
def canonLinear (l : List (ℕ × ℚ)) : List (ℕ × ℚ) :=
  (linKeys l).map (fun i => (i, coeffAt l i))

/-- The quadratic keys of a quadratic-term list, in canonical order. -/
def quadKeys (l : List ((ℕ × ℕ) × ℚ)) : List (ℕ × ℕ) :=
  List.insertionSort quadKeyLE (l.map Prod.fst).dedup

/-- Canonical form of a quadratic part. -/
def canonQuad (l : List ((ℕ × ℕ) × ℚ)) : List ((ℕ × ℕ) × ℚ) :=
  (quadKeys l).map (fun k => (k, coeffAtQ l k))

/-- Canonical form of a standard representation: linear and quadratic
terms merged and emitted in canonical variable order. -/
def canonRepn (r : Repn) : Repn :=
  ⟨r.const, canonLinear r.linear, canonQuad r.quad, r.nonlinear⟩

/-- The summands of an expression, flattening nested sums. -/
def Expr.termsOf : Expr → List Expr
  | .add a b => a.termsOf ++ b.termsOf
  | e => [e]

/-! ## The model, the symbol map and the writer (for C1, C2, C3, C6) -/

/-- Modelled from the spec: a model — named constraints (rows), each with
an expression body, plus an objective expression. -/
structure Model where
  obj : Expr
  cons : List (String × Expr)
deriving DecidableEq, Repr

/-- Modelled from the spec: the `io_options` of `model.write` that the
claims mention — `symbolic_solver_labels` and `file_determinism`. -/
structure IOOptions where
  symbolicSolverLabels : Bool
  fileDeterminism : ℕ
deriving DecidableEq, Repr

/-- Modelled from the spec: the canonical representation of a whole
model — the canonicalized repn of the objective and of every row. -/
structure CanonicalRepresentation where
  objRepn : Repn
  rows : List (String × Repn)
deriving DecidableEq, Repr

/-- First-match association-list lookup (Python dict read). -/
def lookupA {κ ν : Type} [DecidableEq κ] (k : κ) : List (κ × ν) → Option ν
  | [] => none
  | p :: l => if p.1 = k then some p.2 else lookupA k l

/-- The all-zero repn. -/
def zeroRepn : Repn := ⟨0, [], [], none⟩

/-- Canonicalized rows keyed by constraint name, in declaration order. -/
def canonEntries (F : Interp) (cs : List (String × Expr)) :
    List (String × Repn) :=
  cs.map (fun p => (p.1, canonRepn (p.2.repn F)))

/-- The constraint names in lexicographic order. -/
def sortedNames (cs : List (String × Expr)) : List String :=
  List.insertionSort strLE (cs.map Prod.fst).dedup

/-- Modelled from the spec: the canonical representation a writer
consumes.  Rows are emitted in sorted-name order when
`file_determinism ≥ 2` and in declaration order otherwise; the terms
inside every row are always in canonical order. -/
def canonicalRepresentation (F : Interp) (io : IOOptions) (m : Model) :
    CanonicalRepresentation :=
  ⟨canonRepn (m.obj.repn F),
   if 2 ≤ io.fileDeterminism then
     (sortedNames m.cons).map
       (fun n => (n, (lookupA n (canonEntries F m.cons)).getD zeroRepn))
   else canonEntries F m.cons⟩

/-- Variables mentioned by the linear and quadratic parts of a repn. -/
def Repn.varsOf (r : Repn) : List ℕ :=
  r.linear.map Prod.fst ++ r.quad.flatMap (fun p => [p.1.1, p.1.2])

/-- All variables of a canonical representation, in increasing order. -/
def CanonicalRepresentation.varsOf (cr : CanonicalRepresentation) :
    List ℕ :=
  List.insertionSort (· ≤ ·)
    (cr.objRepn.varsOf
      ++ cr.rows.flatMap (fun p => (p.2).varsOf)).dedup

/-- Modelled from the spec: the symbol map — "a bidirectional mapping
between internal model components and the short symbolic names used in a
solver's input file".  Components are identified by natural numbers. -/
structure SymbolMap where
  byObject : List (ℕ × String)
  bySymbol : List (String × ℕ)
deriving DecidableEq, Repr

/-- `symbolMap.getSymbol(obj)`. -/
def SymbolMap.getSymbol (sm : SymbolMap) (c : ℕ) : Option String :=
  lookupA c sm.byObject

/-- Modelled from the spec: building the symbol map from the
component/label pairs assigned by the writer, registering each pair in
both directions. -/
def buildSymbolMap (pairs : List (ℕ × String)) : SymbolMap :=
  ⟨pairs, pairs.map (fun p => (p.2, p.1))⟩

/-- Decimal digit character (code point 48 is `0`). -/
def digitChar (d : ℕ) : Char := Char.ofNat (48 + d)

/-- Decimal digit list of `n`, most significant digit first (structural
recursion on a fuel bound so labels evaluate inside the logic; `fuel ≥ n`
suffices). -/
def natDigits : ℕ → ℕ → List Char
  | 0, _ => []
  | _ + 1, 0 => []
  | fuel + 1, n + 1 =>
    natDigits fuel ((n + 1) / 10) ++ [digitChar ((n + 1) % 10)]

/-- Decimal rendering of a natural number. -/
def natStr (n : ℕ) : String :=
  if n = 0 then "0" else String.mk (natDigits n n)

/-- Value of a decimal digit string (left inverse of `natDigits`). -/
def digitsVal (l : List Char) : ℕ :=
  l.foldl (fun acc c => 10 * acc + (c.toNat - 48)) 0

theorem digitsVal_append_digit (l : List Char) (c : Char) :
    digitsVal (l ++ [c]) = 10 * digitsVal l + (c.toNat - 48) := by
  unfold digitsVal
  rw [List.foldl_append]
  rfl

theorem digitChar_toNat (d : ℕ) (h : d < 10) :
    (digitChar d).toNat = 48 + d := by
  interval_cases d <;> decide

theorem digitsVal_natDigits :
    ∀ fuel n, n ≤ fuel → digitsVal (natDigits fuel n) = n
  | 0, 0, _ => rfl
  | 0, n + 1, h => absurd h (by omega)
  | fuel + 1, 0, _ => rfl
  | fuel + 1, n + 1, h => by
    rw [natDigits, digitsVal_append_digit]
    have hdiv : (n + 1) / 10 ≤ fuel := by
      have := Nat.div_lt_self (Nat.succ_pos n) (by omega : 1 < 10)
      omega
    rw [digitsVal_natDigits fuel ((n + 1) / 10) hdiv]
    rw [digitChar_toNat ((n + 1) % 10) (Nat.mod_lt _ (by omega))]
    omega

theorem digitsVal_natStr (n : ℕ) : digitsVal (natStr n).data = n := by
  unfold natStr
  by_cases h : n = 0
  · subst h
    rfl
  · rw [if_neg h]
    exact digitsVal_natDigits n n (le_refl n)

theorem natStr_injective (m n : ℕ) (h : natStr m = natStr n) : m = n := by
  have := congrArg (fun s => digitsVal (String.data s)) h
  simpa [digitsVal_natStr] using this

/-- Default label of variable `i`. -/
def varLabel (i : ℕ) : String := "x" ++ natStr i

theorem varLabel_injective (i j : ℕ) (h : varLabel i = varLabel j) :
    i = j := by
  unfold varLabel at h
  have hd := congrArg String.data h
  rw [String.data_append, String.data_append] at hd
  have : (natStr i).data = (natStr j).data := by
    simpa using hd
  apply natStr_injective
  exact String.ext this

/-- The symbol map the writer derives from a canonical representation. -/
def symbolMapOf (cr : CanonicalRepresentation) : SymbolMap :=
  buildSymbolMap (cr.varsOf.map (fun i => (i, varLabel i)))

/-- Deterministic decimal rendering of a rational. -/
def ratStr (q : ℚ) : String :=
  if q.den = 1 then toString q.num
  else toString q.num ++ "/" ++ toString q.den

/-- Label used for variable `i` in the output file. -/
def symStr (sm : SymbolMap) (i : ℕ) : String :=
  (sm.getSymbol i).getD (varLabel i)

/-- Solver-file spelling of the unary intrinsic functions. -/
def UFunc.name : UFunc → String
  | .sin => "sin"
  | .cos => "cos"
  | .exp => "exp"
  | .log => "log"

/-- Rendering of a (nonlinear) expression tree. -/
def Expr.render (sm : SymbolMap) : Expr → String
  | .const q => ratStr q
  | .var i => symStr sm i
  | .add a b => "(" ++ a.render sm ++ " + " ++ b.render sm ++ ")"
  | .mul a b => "(" ++ a.render sm ++ "*" ++ b.render sm ++ ")"
  | .pow a n => "(" ++ a.render sm ++ "^" ++ toString n ++ ")"
  | .unary f a => f.name ++ "(" ++ a.render sm ++ ")"

/-- Rendering of a linear part. -/
def renderLin (sm : SymbolMap) (l : List (ℕ × ℚ)) : String :=
  String.intercalate " + "
    (l.map (fun p => ratStr p.2 ++ "*" ++ symStr sm p.1))

/-- Rendering of a quadratic part. -/
def renderQuad (sm : SymbolMap) (l : List ((ℕ × ℕ) × ℚ)) : String :=
  String.intercalate " + "
    (l.map (fun p =>
      ratStr p.2 ++ "*" ++ symStr sm p.1.1 ++ "*" ++ symStr sm p.1.2))

/-- Rendering of one canonicalized repn. -/
def renderRepn (sm : SymbolMap) (r : Repn) : String :=
  ratStr r.const ++ " + [" ++ renderLin sm r.linear ++ "] + ["
    ++ renderQuad sm r.quad ++ "]"
    ++ (match r.nonlinear with
        | none => ""
        | some e => " + " ++ e.render sm)

/-- Row label: the symbolic name under `symbolic_solver_labels`, a
numbered label otherwise. -/
def rowLabel (io : IOOptions) (idx : ℕ) (name : String) : String :=
  if io.symbolicSolverLabels then name else "e" ++ toString idx

/-- Render the rows in order. -/
def renderRows (sm : SymbolMap) (io : IOOptions) :
    ℕ → List (String × Repn) → String
  | _, [] => ""
  | i, p :: rest =>
    rowLabel io i p.1 ++ ": " ++ renderRepn sm p.2 ++ ";\n"
      ++ renderRows sm io (i + 1) rest

/-- Modelled from the spec: the writer contract — serialize a canonical
representation plus a symbol map into the on-disk problem file. -/
def renderOutput (cr : CanonicalRepresentation) (sm : SymbolMap)
    (io : IOOptions) : String :=
  "VARIABLES "
    ++ String.intercalate ", " (cr.varsOf.map (symStr sm)) ++ ";\n"
    ++ renderRows sm io 1 cr.rows
    ++ "OBJ: minimize " ++ renderRepn sm cr.objRepn ++ ";\n"

/-- Modelled from the spec: `model.write(filename, format="bar",
io_options=...)` — canonicalize the model, build the symbol map, and
serialize. -/
def writeModel (F : Interp) (m : Model) (io : IOOptions) : String :=
  let cr := canonicalRepresentation F io m
  renderOutput cr (symbolMapOf cr) io

/-- **C1.** Writing a model is deterministic: the on-disk file is a pure
function of the canonical representation plus the symbol map alone — the
writer first builds those two objects and then serializes them, so any
two models (in particular the same model written twice) whose canonical
representations (and hence symbol maps) under the
same `io_options` coincide produce byte-identical output. -/
theorem writer_deterministic (F : Interp) (m1 m2 : Model) (io : IOOptions)
    (hcr : canonicalRepresentation F io m1
      = canonicalRepresentation F io m2) :
    writeModel F m1 io
      = renderOutput (canonicalRepresentation F io m1)
          (symbolMapOf (canonicalRepresentation F io m1)) io
      ∧ writeModel F m1 io = writeModel F m2 io := by
  constructor
  · rfl
  · unfold writeModel
    rw [hcr]

/-- Witness for C1 at concrete inputs (two syntactically different
models with the same canonical representation). -/
theorem writer_deterministic_witness :
    canonicalRepresentation zeroInterp ⟨true, 2⟩
        ⟨Expr.add (.var 0) (.var 1), [("c", Expr.var 0)]⟩
      = canonicalRepresentation zeroInterp ⟨true, 2⟩
        ⟨Expr.add (.var 1) (.var 0), [("c", Expr.var 0)]⟩
      ∧ writeModel zeroInterp
          ⟨Expr.add (.var 0) (.var 1), [("c", Expr.var 0)]⟩ ⟨true, 2⟩
        = writeModel zeroInterp
          ⟨Expr.add (.var 1) (.var 0), [("c", Expr.var 0)]⟩ ⟨true, 2⟩ := by
  refine ⟨by with_unfolding_all decide, ?_⟩
  exact (writer_deterministic zeroInterp
    ⟨Expr.add (.var 0) (.var 1), [("c", Expr.var 0)]⟩
    ⟨Expr.add (.var 1) (.var 0), [("c", Expr.var 0)]⟩
    ⟨true, 2⟩ (by with_unfolding_all decide)).2

theorem lookupA_mem {κ ν : Type} [DecidableEq κ] (k : κ) (v : ν) :
    ∀ l : List (κ × ν), lookupA k l = some v → (k, v) ∈ l
  | [], h => by cases h
  | p :: l, h => by
    rw [lookupA] at h
    by_cases hp : p.1 = k
    · rw [if_pos hp] at h
      injection h with h2
      rw [List.mem_cons]
      left
      rw [← hp, ← h2]
    · rw [if_neg hp] at h
      exact List.mem_cons_of_mem _ (lookupA_mem k v l h)

theorem lookupA_of_mem_nodup {κ ν : Type} [DecidableEq κ] (k : κ) (v : ν)
    (l : List (κ × ν)) (hm : (k, v) ∈ l)
    (hn : (l.map Prod.fst).Nodup) : lookupA k l = some v := by
  induction l with
  | nil => cases hm
  | cons p l ih =>
    rw [List.map_cons, List.nodup_cons] at hn
    rw [lookupA]
    rcases List.mem_cons.mp hm with h | h
    · subst h
      simp
    · have hp : p.1 ≠ k := by
        intro hpk
        apply hn.1
        rw [hpk]
        exact List.mem_map_of_mem Prod.fst h
      rw [if_neg hp]
      exact ih h hn.2

theorem fst_eq_of_mem_snd_nodup {κ ν : Type} (a b : κ) (s : ν)
    (l : List (κ × ν)) (ha : (a, s) ∈ l) (hb : (b, s) ∈ l)
    (hn : (l.map Prod.snd).Nodup) : a = b := by
  induction l with
  | nil => cases ha
  | cons p l ih =>
    rw [List.map_cons, List.nodup_cons] at hn
    rcases List.mem_cons.mp ha with h1 | h1 <;>
      rcases List.mem_cons.mp hb with h2 | h2
    · rw [← h1] at h2
      exact (congrArg Prod.fst h2).symm
    · exfalso
      apply hn.1
      rw [← h1]
      show s ∈ List.map Prod.snd l
      exact List.mem_map_of_mem Prod.snd h2
    · exfalso
      apply hn.1
      rw [← h2]
      show s ∈ List.map Prod.snd l
      exact List.mem_map_of_mem Prod.snd h1
    · exact ih h1 h2 hn.2

theorem buildSymbolMap_bySymbol_keys (pairs : List (ℕ × String)) :
    ((buildSymbolMap pairs).bySymbol).map Prod.fst
      = pairs.map Prod.snd := by
  unfold buildSymbolMap
  rw [List.map_map]
  rfl

/-- A symbol map built from pairs with distinct symbols is bidirectional
(helper for the main theorem below, which discharges the distinctness for
the writer-built map). -/
theorem buildSymbolMap_bidirectional_of_nodup (pairs : List (ℕ × String))
    (hsym : (pairs.map Prod.snd).Nodup) :
    (∀ c s, (buildSymbolMap pairs).getSymbol c = some s →
        lookupA s (buildSymbolMap pairs).bySymbol = some c)
      ∧ (∀ c1 c2 s1 s2, (buildSymbolMap pairs).getSymbol c1 = some s1 →
          (buildSymbolMap pairs).getSymbol c2 = some s2 →
          c1 ≠ c2 → s1 ≠ s2) := by
  constructor
  · intro c s hget
    have hm := lookupA_mem c s pairs hget
    have hm2 : (s, c) ∈ (buildSymbolMap pairs).bySymbol :=
      List.mem_map_of_mem (fun p => (p.2, p.1)) hm
    apply lookupA_of_mem_nodup s c _ hm2
    rw [buildSymbolMap_bySymbol_keys]
    exact hsym
  · intro c1 c2 s1 s2 h1 h2 hne hss
    subst hss
    exact hne (fst_eq_of_mem_snd_nodup c1 c2 s1 pairs
      (lookupA_mem c1 s1 pairs h1) (lookupA_mem c2 s1 pairs h2) hsym)

/-- The label list the writer assigns has no duplicate symbols: the
variable list of a canonical representation is duplicate-free and the
labeler is injective. -/
theorem symbolMapOf_labels_nodup (cr : CanonicalRepresentation) :
    (((cr.varsOf).map (fun i => (i, varLabel i))).map Prod.snd).Nodup := by
  rw [List.map_map]
  have hcomp : (Prod.snd ∘ fun i => (i, varLabel i)) = varLabel := rfl
  rw [hcomp]
  apply List.Nodup.map
  · intro a b hab
    exact varLabel_injective a b hab
  · exact (List.perm_insertionSort _ _).nodup_iff.mpr
      (List.nodup_dedup _)

/-- **C6.** The symbol map the writer builds for a model's canonical
representation is a bidirectional (one-to-one) mapping: for every
component `c` to which the writer assigns a symbol `s`, `bySymbol` maps
`s` back to exactly `c`, and distinct components are assigned distinct
symbols.  The distinctness of the handed-out labels is proved, not
assumed: the writer's variable list is duplicate-free and its labeler is
injective. -/
theorem symbolMapOf_bidirectional (cr : CanonicalRepresentation) :
    (∀ c s, (symbolMapOf cr).getSymbol c = some s →
        lookupA s (symbolMapOf cr).bySymbol = some c)
      ∧ (∀ c1 c2 s1 s2, (symbolMapOf cr).getSymbol c1 = some s1 →
          (symbolMapOf cr).getSymbol c2 = some s2 →
          c1 ≠ c2 → s1 ≠ s2) :=
  buildSymbolMap_bidirectional_of_nodup
    ((cr.varsOf).map (fun i => (i, varLabel i)))
    (symbolMapOf_labels_nodup cr)

/-- Witness for C6 at a concrete writer-built symbol map. -/
theorem symbolMapOf_bidirectional_witness :
    (symbolMapOf (canonicalRepresentation zeroInterp ⟨true, 2⟩
        ⟨Expr.add (.var 0) (.var 1), [("c", Expr.var 0)]⟩)).getSymbol 0
      = some "x0"
      ∧ lookupA "x0" (symbolMapOf (canonicalRepresentation zeroInterp
          ⟨true, 2⟩ ⟨Expr.add (.var 0) (.var 1),
            [("c", Expr.var 0)]⟩)).bySymbol = some 0
      ∧ "x0" ≠ "x1" := by
  refine ⟨by with_unfolding_all decide, ?_, ?_⟩
  · exact (symbolMapOf_bidirectional (canonicalRepresentation zeroInterp
      ⟨true, 2⟩ ⟨Expr.add (.var 0) (.var 1), [("c", Expr.var 0)]⟩)).1
      0 "x0" (by with_unfolding_all decide)
  · exact (symbolMapOf_bidirectional (canonicalRepresentation zeroInterp
      ⟨true, 2⟩ ⟨Expr.add (.var 0) (.var 1), [("c", Expr.var 0)]⟩)).2
      0 1 "x0" "x1" (by with_unfolding_all decide)
      (by with_unfolding_all decide) (by decide)

/-! ## Order independence of the writer (C3) -/

theorem coeffAt_perm {l1 l2 : List (ℕ × ℚ)} (h : l1.Perm l2) (i : ℕ) :
    coeffAt l1 i = coeffAt l2 i :=
  List.Perm.sum_eq ((h.filter _).map _)

theorem coeffAtQ_perm {l1 l2 : List ((ℕ × ℕ) × ℚ)} (h : l1.Perm l2)
    (k : ℕ × ℕ) : coeffAtQ l1 k = coeffAtQ l2 k :=
  List.Perm.sum_eq ((h.filter _).map _)

theorem canonLinear_perm {l1 l2 : List (ℕ × ℚ)} (h : l1.Perm l2) :
    canonLinear l1 = canonLinear l2 := by
  unfold canonLinear linKeys
  rw [insertionSort_dedup_eq_of_perm (· ≤ ·) (h.map Prod.fst)]
  have : (fun i => (i, coeffAt l1 i)) = fun i => (i, coeffAt l2 i) :=
    funext fun i => by rw [coeffAt_perm h]
  rw [this]

theorem canonQuad_perm {l1 l2 : List ((ℕ × ℕ) × ℚ)} (h : l1.Perm l2) :
    canonQuad l1 = canonQuad l2 := by
  unfold canonQuad quadKeys
  rw [insertionSort_dedup_eq_of_perm quadKeyLE (h.map Prod.fst)]
  have : (fun k => (k, coeffAtQ l1 k)) = fun k => (k, coeffAtQ l2 k) :=
    funext fun k => by rw [coeffAtQ_perm h]
  rw [this]

theorem repn_const_terms (F : Interp) (e : Expr) :
    (e.repn F).const
      = ((e.termsOf).map (fun t => (t.repn F).const)).sum := by
  induction e with
  | const q => simp [Expr.termsOf]
  | var i => simp [Expr.termsOf]
  | add a b iha ihb =>
    simp only [Expr.termsOf, Expr.repn, Repn.addR, List.map_append,
      List.sum_append]
    rw [iha, ihb]
  | mul a b _ _ => simp [Expr.termsOf]
  | pow a n _ => simp [Expr.termsOf]
  | unary f a _ => simp [Expr.termsOf]

theorem repn_linear_terms (F : Interp) (e : Expr) :
    (e.repn F).linear
      = (e.termsOf).flatMap (fun t => (t.repn F).linear) := by
  induction e with
  | const q => simp [Expr.termsOf]
  | var i => simp [Expr.termsOf]
  | add a b iha ihb =>
    simp only [Expr.termsOf, Expr.repn, Repn.addR, List.flatMap_append]
    rw [iha, ihb]
  | mul a b _ _ => simp [Expr.termsOf]
  | pow a n _ => simp [Expr.termsOf]
  | unary f a _ => simp [Expr.termsOf]

theorem repn_quad_terms (F : Interp) (e : Expr) :
    (e.repn F).quad
      = (e.termsOf).flatMap (fun t => (t.repn F).quad) := by
  induction e with
  | const q => simp [Expr.termsOf]
  | var i => simp [Expr.termsOf]
  | add a b iha ihb =>
    simp only [Expr.termsOf, Expr.repn, Repn.addR, List.flatMap_append]
    rw [iha, ihb]
  | mul a b _ _ => simp [Expr.termsOf]
  | pow a n _ => simp [Expr.termsOf]
  | unary f a _ => simp [Expr.termsOf]

theorem repn_nl_none_of_terms (F : Interp) (e : Expr)
    (h : ∀ t ∈ e.termsOf, (t.repn F).nonlinear = none) :
    (e.repn F).nonlinear = none := by
  induction e with
  | const q => rfl
  | var i => rfl
  | add a b iha ihb =>
    simp only [Expr.repn, Repn.addR]
    rw [nlAdd_eq_none]
    constructor
    · exact iha (fun t ht => h t (by simp [Expr.termsOf, ht]))
    · exact ihb (fun t ht => h t (by simp [Expr.termsOf, ht]))
  | mul a b _ _ => exact h _ (by simp [Expr.termsOf])
  | pow a n _ => exact h _ (by simp [Expr.termsOf])
  | unary f a _ => exact h _ (by simp [Expr.termsOf])

/-- Two expressions whose (at most quadratic) summands are the same up to
order have the same canonicalized standard representation. -/
theorem canonRepn_eq_of_terms_perm (F : Interp) (e1 e2 : Expr)
    (hperm : (e1.termsOf).Perm (e2.termsOf))
    (hdeg : ∀ t ∈ e1.termsOf, t.degree ≤ 2) :
    canonRepn (e1.repn F) = canonRepn (e2.repn F) := by
  have hnl1 : (e1.repn F).nonlinear = none :=
    repn_nl_none_of_terms F e1
      (fun t ht => nl_none_of_degree_le_two F t (hdeg t ht))
  have hnl2 : (e2.repn F).nonlinear = none :=
    repn_nl_none_of_terms F e2
      (fun t ht =>
        nl_none_of_degree_le_two F t (hdeg t (hperm.mem_iff.mpr ht)))
  have hc : (e1.repn F).const = (e2.repn F).const := by
    rw [repn_const_terms F e1, repn_const_terms F e2]
    exact List.Perm.sum_eq (hperm.map _)
  have hl : canonLinear (e1.repn F).linear
      = canonLinear (e2.repn F).linear := by
    rw [repn_linear_terms F e1, repn_linear_terms F e2]
    exact canonLinear_perm (hperm.flatMap_right _)
  have hq : canonQuad (e1.repn F).quad = canonQuad (e2.repn F).quad := by
    rw [repn_quad_terms F e1, repn_quad_terms F e2]
    exact canonQuad_perm (hperm.flatMap_right _)
  unfold canonRepn
  rw [hnl1, hnl2, hc, hl, hq]

/-- Relation between two constraint entries: same name, and expression
bodies that are sums of the same terms up to order. -/
def TermPermEntry (p q : String × Expr) : Prop :=
  p.1 = q.1 ∧ (p.2.termsOf).Perm (q.2.termsOf)

theorem canonEntries_eq_of_forall2 (F : Interp) :
    ∀ cs1 cs2 : List (String × Expr),
      List.Forall₂ TermPermEntry cs1 cs2 →
      (∀ p ∈ cs1, ∀ t ∈ (p.2).termsOf, t.degree ≤ 2) →
      canonEntries F cs1 = canonEntries F cs2 := by
  intro cs1 cs2 hF
  induction hF with
  | nil => intro; rfl
  | @cons a b l1 l2 ha hl ih =>
    intro hdeg
    unfold canonEntries
    simp only [List.map_cons]
    have hhead : (a.1, canonRepn (a.2.repn F))
        = (b.1, canonRepn (b.2.repn F)) := by
      rw [ha.1, canonRepn_eq_of_terms_perm F a.2 b.2 ha.2
        (hdeg a (List.mem_cons_self _ _))]
    rw [hhead]
    have htail := ih (fun p hp => hdeg p (List.mem_cons_of_mem _ hp))
    unfold canonEntries at htail
    rw [htail]

theorem forall2_names_eq :
    ∀ cs1 cs2 : List (String × Expr),
      List.Forall₂ TermPermEntry cs1 cs2 →
      cs1.map Prod.fst = cs2.map Prod.fst := by
  intro cs1 cs2 hF
  induction hF with
  | nil => rfl
  | @cons a b l1 l2 ha hl ih =>
    simp only [List.map_cons]
    rw [ha.1, ih]

theorem lookupA_eq_none {κ ν : Type} [DecidableEq κ] (k : κ) :
    ∀ l : List (κ × ν), lookupA k l = none ↔ k ∉ l.map Prod.fst
  | [] => by simp [lookupA]
  | p :: l => by
    rw [lookupA, List.map_cons]
    by_cases hp : p.1 = k
    · rw [if_pos hp]
      constructor
      · intro h
        cases h
      · intro h
        exfalso
        exact h (by rw [← hp]; exact List.mem_cons_self _ _)
    · rw [if_neg hp]
      rw [lookupA_eq_none k l]
      constructor
      · intro h hk
        rcases List.mem_cons.mp hk with h1 | h1
        · exact hp h1.symm
        · exact h h1
      · intro h hk
        exact h (List.mem_cons_of_mem _ hk)

theorem lookupA_eq_of_perm_nodup {κ ν : Type} [DecidableEq κ] (k : κ)
    {l1 l2 : List (κ × ν)} (h : l1.Perm l2)
    (hn : (l1.map Prod.fst).Nodup) :
    lookupA k l1 = lookupA k l2 := by
  cases hv : lookupA k l1 with
  | some v =>
    have hm := lookupA_mem k v l1 hv
    have hn2 : (l2.map Prod.fst).Nodup := ((h.map Prod.fst).nodup_iff).mp hn
    exact (lookupA_of_mem_nodup k v l2 (h.mem_iff.mp hm) hn2).symm
  | none =>
    symm
    rw [lookupA_eq_none]
    rw [lookupA_eq_none] at hv
    intro hk
    exact hv (((h.map Prod.fst).mem_iff).mpr hk)

/-- **C3.** Writer output is independent of declaration order: if two
models have the same objective and constraints up to (i) reordering of
the (linear or quadratic) terms inside each expression and (ii)
reordering of the constraint declarations, then — with
`file_determinism = 2` — the writer produces byte-identical files:
variable (column) and row ordering in the file follow the canonical
order, not input order. -/
theorem writer_order_independent (F : Interp) (m1 m2 : Model)
    (io : IOOptions) (mid : List (String × Expr))
    (hio : io.fileDeterminism = 2)
    (hobj : (m1.obj.termsOf).Perm (m2.obj.termsOf))
    (hobjdeg : ∀ t ∈ m1.obj.termsOf, t.degree ≤ 2)
    (hF : List.Forall₂ TermPermEntry m1.cons mid)
    (hP : mid.Perm m2.cons)
    (hdeg : ∀ p ∈ m1.cons, ∀ t ∈ (p.2).termsOf, t.degree ≤ 2)
    (hnames : (m1.cons.map Prod.fst).Nodup) :
    writeModel F m1 io = writeModel F m2 io := by
  apply (writer_deterministic F m1 m2 io ?_).2
  have hobjr : canonRepn (m1.obj.repn F) = canonRepn (m2.obj.repn F) :=
    canonRepn_eq_of_terms_perm F _ _ hobj hobjdeg
  have hmid : canonEntries F m1.cons = canonEntries F mid :=
    canonEntries_eq_of_forall2 F _ _ hF hdeg
  have hperm : (canonEntries F m1.cons).Perm (canonEntries F m2.cons) := by
    rw [hmid]
    exact hP.map _
  have hnames2 : m1.cons.map Prod.fst = mid.map Prod.fst :=
    forall2_names_eq _ _ hF
  have hnamesPerm : (m1.cons.map Prod.fst).Perm (m2.cons.map Prod.fst) := by
    rw [hnames2]
    exact hP.map _
  have hsorted : sortedNames m1.cons = sortedNames m2.cons := by
    unfold sortedNames
    exact insertionSort_dedup_eq_of_perm strLE hnamesPerm
  have hkeys : (canonEntries F m1.cons).map Prod.fst
      = m1.cons.map Prod.fst := by
    unfold canonEntries
    rw [List.map_map]
    rfl
  have hfun : ∀ n, lookupA n (canonEntries F m1.cons)
      = lookupA n (canonEntries F m2.cons) := by
    intro n
    apply lookupA_eq_of_perm_nodup n hperm
    rw [hkeys]
    exact hnames
  unfold canonicalRepresentation
  have h2le : 2 ≤ io.fileDeterminism := by omega
  rw [hobjr, hsorted, if_pos h2le, if_pos h2le]
  have hfn : (fun n =>
        (n, (lookupA n (canonEntries F m1.cons)).getD zeroRepn))
      = fun n => (n, (lookupA n (canonEntries F m2.cons)).getD zeroRepn) :=
    funext fun n => by rw [hfun n]
  rw [hfn]

/-- Witness for C3 at concrete inputs: two models with permuted
expression terms and permuted constraint declarations. -/
theorem writer_order_independent_witness :
    writeModel zeroInterp ⟨Expr.add (Expr.add (.var 0) (.var 1)) (.var 2),
        [("c1", Expr.add (.var 0) (.var 1)), ("c2", Expr.var 2)]⟩ ⟨true, 2⟩
      = writeModel zeroInterp
        ⟨Expr.add (.var 2) (Expr.add (.var 1) (.var 0)),
        [("c2", Expr.var 2), ("c1", Expr.add (.var 1) (.var 0))]⟩
        ⟨true, 2⟩ :=
  writer_order_independent zeroInterp
    ⟨Expr.add (Expr.add (.var 0) (.var 1)) (.var 2),
      [("c1", Expr.add (.var 0) (.var 1)), ("c2", Expr.var 2)]⟩
    ⟨Expr.add (.var 2) (Expr.add (.var 1) (.var 0)),
      [("c2", Expr.var 2), ("c1", Expr.add (.var 1) (.var 0))]⟩
    ⟨true, 2⟩
    [("c1", Expr.add (.var 1) (.var 0)), ("c2", Expr.var 2)]
    rfl (by decide) (by decide)
    (List.Forall₂.cons ⟨rfl, by decide⟩
      (List.Forall₂.cons ⟨rfl, by decide⟩ List.Forall₂.nil))
    (by decide) (by decide) (by decide)
